import Mathlib

/-!
Verification of the missend-detector pipeline (src/extract_case_entries.py,
src/monitor_service.py) against its specification.

Python strings are modelled as lists of characters (`PyStr`); every Python
string operation the sources use (`splitlines`, `strip`, slicing, regular
expressions instantiated at the repository's fixed patterns) is translated
into an executable Lean function on `PyStr`.
-/

namespace Missend

/-- Python strings, modelled as lists of characters. -/
abbrev PyStr := List Char

/-- The whitespace characters recognised by Python's `str.strip()` and by the
regex class `\s` that actually occur in this repository's data: the ASCII
whitespace characters plus the ideographic space U+3000. -/
def pyIsSpace (c : Char) : Bool :=
  c == ' ' || c == '\t' || c == '\n' || c == '\r' || c == '\x0b' || c == '\x0c' ||
    c == '　'

/-- Python `str.lstrip()` (no argument): drop leading whitespace. -/
def lstrip (s : PyStr) : PyStr := s.dropWhile pyIsSpace

/-- Python `str.rstrip()` (no argument): drop trailing whitespace.
Written recursively from the front so that proofs can proceed by induction. -/
def rstrip : PyStr → PyStr
  | [] => []
  | c :: t =>
    match rstrip t with
    | [] => if pyIsSpace c then [] else [c]
    | r => c :: r

/-- Python `str.strip()` (no argument). -/
def pyStrip (s : PyStr) : PyStr := rstrip (lstrip s)

/-- Helper for `pySplitlines`: prepend a character to the first chunk. -/
def consHead (c : Char) : List PyStr → List PyStr
  | [] => [[c]]
  | l :: ls => (c :: l) :: ls

/-- Python `str.splitlines()` restricted to the `'\n'` line terminator (the
only terminator produced by this pipeline, which joins with `"\n"` and
strips `"\r"` at line ends).  A trailing terminator produces no empty final
line, and the empty string yields no lines. -/
def pySplitlines : PyStr → List PyStr
  | [] => []
  | c :: t => if c = '\n' then [] :: pySplitlines t else consHead c (pySplitlines t)

/-- Python `"\n".join(lines)`. -/
def joinNl : List PyStr → PyStr
  | [] => []
  | [l] => l
  | l :: ls => l ++ '\n' :: joinNl ls

/-- Test whether `pre` is an initial run of `s`. -/
def beginsWith : PyStr → PyStr → Bool
  | [], _ => true
  | _ :: _, [] => false
  | p :: ps, c :: cs => p == c && beginsWith ps cs

/-- Case-insensitive variant of `beginsWith` (regex `re.IGNORECASE`). -/
def beginsWithCI : PyStr → PyStr → Bool
  | [], _ => true
  | _ :: _, [] => false
  | p :: ps, c :: cs => p.toLower == c.toLower && beginsWithCI ps cs

/-- Python `str.lower()`. -/
def pyLower (s : PyStr) : PyStr := s.map Char.toLower

/-- The `type` field of an extracted entry: `"Question"`, `"Answer"` or
`"Unknown"` as assigned by `parse_entries` (extract_case_entries.py:86-96). -/
inductive EntryType
  | Question
  | Answer
  | Unknown
deriving DecidableEq, Repr

/-- One extracted record `{date, type, data}` (extract_case_entries.py:98-104).
The dict key `type` is rendered as the field `etype`. -/
structure Entry where
  date : PyStr
  etype : EntryType
  data : PyStr
deriving DecidableEq, Repr

/-- Total length of the `data` fields of a list of entries. -/
def dataLen (es : List Entry) : Nat := (es.map (fun e => e.data.length)).sum

/-- Loop body of `trim_entries` (monitor_service.py:276-293), with the running
character total `total` made explicit.  Entries with empty bodies are skipped;
the first entry whose body would meet or exceed the remaining budget is
truncated to the remaining budget by `data[:remaining]`, and the loop stops
once the total reaches `max_chars`. -/
def trimGo (maxChars : Nat) : List Entry → Nat → List Entry
  | [], _ => []
  | e :: es, total =>
    if e.data = [] then trimGo maxChars es total
    else if maxChars ≤ total then []
    else
      let remaining := maxChars - total
      let d := if remaining < e.data.length then e.data.take remaining else e.data
      { e with data := d } ::
        (if maxChars ≤ total + d.length then [] else trimGo maxChars es (total + d.length))

/-- `trim_entries(entries, max_chars)` (monitor_service.py:276-293). -/
def trim_entries (entries : List Entry) (maxChars : Nat) : List Entry :=
  trimGo maxChars entries 0

/-- The default fence pattern `^ー+$` (DEFAULT_SEPARATOR_PATTERN,
extract_case_entries.py:10) used with `re.match`: the whole line is a
non-empty run of `'ー'` (U+30FC). -/
def isSepLine (l : PyStr) : Bool := !l.isEmpty && l.all (fun c => c == 'ー')

/-- Consume exactly `n` regex `\d` digits, returning (consumed, rest). -/
def matchDigits : Nat → PyStr → Option (PyStr × PyStr)
  | 0, s => some ([], s)
  | _ + 1, [] => none
  | n + 1, c :: t =>
    if c.isDigit then
      match matchDigits n t with
      | some (d, r) => some (c :: d, r)
      | none => none
    else none

/-- Consume exactly the character `ch`. -/
def matchChar (ch : Char) : PyStr → Option (PyStr × PyStr)
  | [] => none
  | c :: t => if c = ch then some ([c], t) else none

/-- Consume a maximal non-empty run of `\s` whitespace (`\s+`; greedy, and no
backtracking can help since the following token is a digit). -/
def matchWs (s : PyStr) : Option (PyStr × PyStr) :=
  let ws := s.takeWhile pyIsSpace
  if ws.isEmpty then none else some (ws, s.dropWhile pyIsSpace)

/-- Match the date group `\d{4}/\d{2}/\d{2}\s+\d{2}:\d{2}`
(DEFAULT_HEADER_DATE_PATTERN, extract_case_entries.py:13) at the start of `s`,
returning (matched date text, rest of the line). -/
def matchDateAt (s : PyStr) : Option (PyStr × PyStr) :=
  match matchDigits 4 s with
  | none => none
  | some (a1, s1) =>
    match matchChar '/' s1 with
    | none => none
    | some (a2, s2) =>
      match matchDigits 2 s2 with
      | none => none
      | some (a3, s3) =>
        match matchChar '/' s3 with
        | none => none
        | some (a4, s4) =>
          match matchDigits 2 s4 with
          | none => none
          | some (a5, s5) =>
            match matchWs s5 with
            | none => none
            | some (a6, s6) =>
              match matchDigits 2 s6 with
              | none => none
              | some (a7, s7) =>
                match matchChar ':' s7 with
                | none => none
                | some (a8, s8) =>
                  match matchDigits 2 s8 with
                  | none => none
                  | some (a9, s9) =>
                    some (a1 ++ a2 ++ a3 ++ a4 ++ a5 ++ a6 ++ a7 ++ a8 ++ a9, s9)

/-- Match the type group `(QUESTION|ANSWER)` case-insensitively at the start of
`s` (the default keywords, extract_case_entries.py:11-12; the alternation tries
the question keyword first), returning the text actually matched. -/
def matchTypeAt (s : PyStr) : Option PyStr :=
  if beginsWithCI "QUESTION".toList s then some (s.take 8)
  else if beginsWithCI "ANSWER".toList s then some (s.take 6)
  else none

/-- The lazy `.*?` before the type group: the keyword is taken at the earliest
possible position (lines contain no `'\n'`, so `.` matches every character). -/
def findTypeFrom : PyStr → Option PyStr
  | [] => none
  | c :: t =>
    match matchTypeAt (c :: t) with
    | some r => some r
    | none => findTypeFrom t

/-- `re.search` of the header regex
`(?P<date>\d{4}/\d{2}/\d{2}\s+\d{2}:\d{2}).*?(?P<type>QUESTION|ANSWER)`
(build_patterns, extract_case_entries.py:34-40): try each start position left
to right; a position succeeds when the date matches there and a type keyword
occurs somewhere after it.  Returns (date group, type group). -/
def headerMatchFrom : PyStr → Option (PyStr × PyStr)
  | [] => none
  | c :: t =>
    match matchDateAt (c :: t) with
    | some (d, rest) =>
      match findTypeFrom rest with
      | some k => some (d, k)
      | none => headerMatchFrom t
    | none => headerMatchFrom t

/-- `header.replace("　", " ")` (extract_case_entries.py:65). -/
def normalizeHeader (l : PyStr) : PyStr := l.map (fun c => if c = '　' then ' ' else c)

/-- Header search on the normalized header line (extract_case_entries.py:65-66). -/
def headerSearch (header : PyStr) : Option (PyStr × PyStr) :=
  headerMatchFrom (normalizeHeader header)

/-- Classification of the matched type text against the keyword lists
(extract_case_entries.py:86-96), with the default single-element lists
`["QUESTION"]` and `["ANSWER"]`; comparisons are case-insensitive. -/
def classifyType (raw : PyStr) : EntryType :=
  if pyLower raw = pyLower "QUESTION".toList then EntryType.Question
  else if pyLower raw = pyLower "ANSWER".toList then EntryType.Answer
  else EntryType.Unknown

/-- One iteration of the `parse_entries` while-loop after an opening fence was
consumed (extract_case_entries.py:57-104): skip blank lines; if input ends,
stop (`break`, modelled by returning remainder `[]`); take the header line;
scan to the next fence (the divider); if input ends, stop; the body is every
line up to the next fence, which is left unconsumed; a record whose header
does not match is discarded.  Returns (entry if any, remaining lines). -/
def stepRecord (rest : List PyStr) : Option Entry × List PyStr :=
  match rest.dropWhile (fun x => x.isEmpty) with
  | [] => (none, [])
  | header :: rest2 =>
    match rest2.dropWhile (fun x => !isSepLine x) with
    | [] => (none, [])
    | _ :: rest4 =>
      let content := rest4.takeWhile (fun x => !isSepLine x)
      let rest5 := rest4.dropWhile (fun x => !isSepLine x)
      match headerSearch header with
      | none => (none, rest5)
      | some (d, raw) =>
        (some { date := d, etype := classifyType raw, data := pyStrip (joinNl content) },
          rest5)

/-- The outer while-loop of `parse_entries` (extract_case_entries.py:52-104):
skip lines until a fence, then process one candidate record.  The loop is
written with explicit fuel so that it computes by structural recursion; every
iteration consumes at least one line, so fuel equal to the number of lines
(as supplied by `parseLoop`) always suffices — `parseGo_fuel_eq` below proves
the result is the same for every sufficient fuel. -/
def parseGo : Nat → List PyStr → List Entry
  | 0, _ => []
  | _ + 1, [] => []
  | fuel + 1, l :: rest =>
    if isSepLine l then
      match stepRecord rest with
      | (none, rest5) => parseGo fuel rest5
      | (some e, rest5) => e :: parseGo fuel rest5
    else parseGo fuel rest

/-- The while-loop of `parse_entries` run to completion. -/
def parseLoop (lines : List PyStr) : List Entry := parseGo lines.length lines

/-- `line.rstrip("\r\n")` (extract_case_entries.py:45). -/
def rstripCRLF (l : PyStr) : PyStr :=
  (l.reverse.dropWhile (fun c => c == '\r' || c == '\n')).reverse

/-- `parse_entries(text, ...)` (extract_case_entries.py:44-115) instantiated at
the default configuration (fence `^ー+$`, keywords QUESTION/ANSWER, date
pattern `\d{4}/\d{2}/\d{2}\s+\d{2}:\d{2}`). -/
def parse_entries (text : PyStr) : List Entry :=
  parseLoop ((pySplitlines text).map rstripCRLF)

/-- `META_LINE_RE = ^(【.*】|\[.*\])$` (monitor_service.py:20), matched with
`re.match` against a stripped line (which contains no newline): the whole line
is bracket-enclosed, by full-width or square brackets. -/
def isMetaLine (s : PyStr) : Bool :=
  decide (2 ≤ s.length) &&
    ((s.head? == some '【' && s.getLast? == some '】') ||
      (s.head? == some '[' && s.getLast? == some ']'))

/-- Python's regex word character `\w`, restricted to ASCII (the repository's
log prefixes are ASCII; the `\b` boundary after them is decided by this). -/
def pyIsWordChar (c : Char) : Bool := c.isAlphanum || c == '_'

/-- The `\b` word boundary after a word character, at the point where `s` is
the remaining input: satisfied at end of input or before a non-word char. -/
def boundaryAt (s : PyStr) : Bool :=
  match s with
  | [] => true
  | c :: _ => !pyIsWordChar c

/-- The `\d{4}-\d{2}-\d{2}\b` alternative of LOG_LINE_RE. -/
def matchLogDate (s : PyStr) : Bool :=
  match matchDigits 4 s with
  | none => false
  | some (_, s1) =>
    match matchChar '-' s1 with
    | none => false
    | some (_, s2) =>
      match matchDigits 2 s2 with
      | none => false
      | some (_, s3) =>
        match matchChar '-' s3 with
        | none => false
        | some (_, s4) =>
          match matchDigits 2 s4 with
          | none => false
          | some (_, s5) => boundaryAt s5

/-- The `\d{2}:\d{2}:\d{2}\b` alternative of LOG_LINE_RE. -/
def matchLogTime (s : PyStr) : Bool :=
  match matchDigits 2 s with
  | none => false
  | some (_, s1) =>
    match matchChar ':' s1 with
    | none => false
    | some (_, s2) =>
      match matchDigits 2 s2 with
      | none => false
      | some (_, s3) =>
        match matchChar ':' s3 with
        | none => false
        | some (_, s4) =>
          match matchDigits 2 s4 with
          | none => false
          | some (_, s5) => boundaryAt s5

/-- A literal severity-keyword alternative of LOG_LINE_RE followed by `\b`. -/
def matchLogKeyword (k s : PyStr) : Bool :=
  beginsWith k s && boundaryAt (s.drop k.length)

/-- `LOG_LINE_RE` (monitor_service.py:21-23) matched with `re.match` against a
stripped line: `^\s*(\d{4}-\d{2}-\d{2}|\d{2}:\d{2}:\d{2}|INFO|ERROR|DEBUG|`
`TRACE|WARN|WARNING)\b` — the leading `\s*` is vacuous on a stripped line, and
the ordered alternation with the trailing `\b` is equivalent to this
disjunction (WARN before WARNING backtracks into WARNING when the boundary
fails, which the WARNING disjunct covers). -/
def isLogLine (s : PyStr) : Bool :=
  matchLogDate s || matchLogTime s ||
    (["INFO", "ERROR", "DEBUG", "TRACE", "WARN", "WARNING"].map String.toList).any
      (fun k => matchLogKeyword k s)

/-- `JSON_LINE_RE = ^\s*[{[].*[}\]]\s*$` (monitor_service.py:24) matched
against a stripped line (no surrounding whitespace, no newline): the line
starts with `{` or `[`, ends with `}` or `]`, and has at least two chars. -/
def isJsonLine (s : PyStr) : Bool :=
  decide (2 ≤ s.length) &&
    ((s.head? == some '{' || s.head? == some '[') &&
      (s.getLast? == some '}' || s.getLast? == some ']'))

/-- The per-line keep test of `clean_entry_data` (monitor_service.py:242-248):
keep the stripped line when it is not a meta line. -/
def metaKeep (s : PyStr) : Bool := !isMetaLine s

/-- The per-line keep test of `remove_logs` (monitor_service.py:258-271): the
stripped line is not a log line, not a JSON-ish line, and not overlong. -/
def logKeep (maxLineLen : Nat) (s : PyStr) : Bool :=
  !isLogLine s && !isJsonLine s && decide (s.length ≤ maxLineLen)

/-- The shared line filter of both cleaning passes: blank lines are dropped and
the predicate `P` is applied to the stripped line, while the original
(unstripped) line is what gets kept. -/
def keepLine (P : PyStr → Bool) (l : PyStr) : Bool :=
  decide (pyStrip l ≠ []) && P (pyStrip l)

/-- The common shape of both cleaning passes: split into lines, keep the lines
passing the filter, rejoin with `"\n"`, and strip the result
(`clean_entry_data` and `remove_logs`, monitor_service.py:239-273). -/
def cleanLines (P : PyStr → Bool) (x : PyStr) : PyStr :=
  pyStrip (joinNl ((pySplitlines x).filter (keepLine P)))

/-- `clean_entry_data(text)` (monitor_service.py:239-249). -/
def clean_entry_data (x : PyStr) : PyStr := cleanLines metaKeep x

/-- `remove_logs(text, log_filter)` (monitor_service.py:252-273); the
`max_line_len` threshold is the only configuration it reads. -/
def remove_logs (x : PyStr) (maxLineLen : Nat) : PyStr :=
  if x = [] then [] else cleanLines (logKeep maxLineLen) x

/-- The meta-removal pass with its fallback as applied per entry in
`build_case_json` (monitor_service.py:303-309): if cleaning emptied a
non-empty body, keep the body unchanged. -/
def cleanWithFallback (x : PyStr) : PyStr :=
  let c := clean_entry_data x
  if c = [] ∧ x ≠ [] then x else c

/-- The log-removal pass with its fallback as applied per entry in
`build_case_json` (monitor_service.py:310-318): if the pass emptied its
non-empty input, keep that input unchanged. -/
def logsWithFallback (maxLineLen : Nat) (y : PyStr) : PyStr :=
  let c := remove_logs y maxLineLen
  if c = [] ∧ y ≠ [] then y else c

/-- The full per-entry cleaning of `build_case_json`: the meta pass, then,
when the log filter is enabled, the log pass, each with its fallback. -/
def cleanFull (logEnabled : Bool) (maxLineLen : Nat) (x : PyStr) : PyStr :=
  let m := cleanWithFallback x
  if logEnabled then logsWithFallback maxLineLen m else m

/-- The `log_filter` settings dict (monitor_service.py:702-706). -/
structure LogFilter where
  enabled : Bool
  max_line_len : Nat

/-- `build_case_json(case_text, max_chars, log_filter)`
(monitor_service.py:296-324): extract entries, clean each body (dropping
entries whose body ends up empty), then trim to the character budget. -/
def build_case_json (case_text : PyStr) (max_chars : Nat) (lf : LogFilter) : List Entry :=
  let entries := parse_entries case_text
  let cleaned_entries := entries.filterMap (fun e =>
    let c := cleanFull lf.enabled lf.max_line_len e.data
    if c = [] then none else some { e with data := c })
  trim_entries cleaned_entries max_chars

/-- Outcome of the completeness gate of `process_case`
(monitor_service.py:570-599).  The constructors carry the log lines:
`skipped reason=no_entries`, `skipped reason=last_entry_not_answer`,
`skipped reason=no_answer_entry`, `result=partial` (with the truncated
transcript), and the fall-through to judgement (with the transcript sent). -/
inductive GateResult
  | skippedNoEntries
  | skippedLastNotAnswer
  | skippedNoAnswerEntry
  | truncatedToLastAnswer (entries : List Entry)
  | proceed (entries : List Entry)
deriving DecidableEq, Repr

/-- The backward scan of monitor_service.py:577-581: the largest index whose
entry is of type Answer (`entry["type"].lower() == "answer"` is equivalent to
the type being `Answer`, the only types `parse_entries` produces being
`Question`, `Answer` and `Unknown`), written as a front recursion. -/
def lastAnswerIndex : List Entry → Option Nat
  | [] => none
  | e :: es =>
    match lastAnswerIndex es with
    | some j => some (j + 1)
    | none => if e.etype = EntryType.Answer then some 0 else none

/-- The completeness gate of `process_case` (monitor_service.py:570-599),
evaluated on the cleaned transcript before any oracle call; `allowTrunc` is
the `allow_partial` setting (`LLM_ALLOW_PARTIAL`). -/
def completenessGate (entries : List Entry) (allowTrunc : Bool) : GateResult :=
  match entries.getLast? with
  | none => GateResult.skippedNoEntries
  | some lastE =>
    if lastE.etype ≠ EntryType.Answer then
      if allowTrunc then
        match lastAnswerIndex entries with
        | none => GateResult.skippedNoAnswerEntry
        | some idx => GateResult.truncatedToLastAnswer (entries.take (idx + 1))
      else GateResult.skippedLastNotAnswer
    else GateResult.proceed entries

/-- The three verdict tokens of the primary parse
(`査閲結果：\s*(承認|却下|不明)`, monitor_service.py:386). -/
def tokApprove : PyStr := "承認".toList

/-- The localized rejection token. -/
def tokReject : PyStr := "却下".toList

/-- The localized unknown token. -/
def tokUnknown : PyStr := "不明".toList

/-- The token alternation `(承認|却下|不明)` tried in order at the start of `t`. -/
def matchJudgeTok (t : PyStr) : Option PyStr :=
  if beginsWith tokApprove t then some tokApprove
  else if beginsWith tokReject t then some tokReject
  else if beginsWith tokUnknown t then some tokUnknown
  else none

/-- Attempt the primary judgement pattern at one start position: the literal
`査閲結果：` (5 characters), then `\s*`, then one of the three tokens (the
token characters are non-whitespace, so the greedy `\s*` is deterministic
here). -/
def matchJudgeAt (s : PyStr) : Option PyStr :=
  if beginsWith "査閲結果：".toList s then
    matchJudgeTok ((s.drop 5).dropWhile pyIsSpace)
  else none

/-- `re.search(r"査閲結果：\s*(承認|却下|不明)", text)` — the `result` group of
`parse_llm_judgement` (monitor_service.py:384-390): leftmost start position
that matches.  The `reason` group plays no role in routing and is not
modelled. -/
def searchJudge : PyStr → Option PyStr
  | [] => none
  | c :: t =>
    match matchJudgeAt (c :: t) with
    | some r => some r
    | none => searchJudge t

/-- `decision_value` (monitor_service.py:621-626).  `resultTok` is the primary
parse's `result` (`None` is falsy, every token is truthy); `jsonDecision`
abstracts the fallback: it is `some d` with `d = str(llm_json.get("decision",
""))` exactly when `parse_llm_json(llm_text)` returned a truthy dict, and
`none` otherwise (`parse_llm_json` itself is Python's full JSON parser; the
claims quantify over the decision value it yields, so it is a parameter
here). -/
def decisionValue (resultTok : Option PyStr) (jsonDecision : Option PyStr) : Option PyStr :=
  match resultTok with
  | some j => some j
  | none =>
    match jsonDecision with
    | some d => some (pyLower d)
    | none => none

/-- The rejection-value set `{"却下", "reject", "rejected", "ng", "fail"}`
(monitor_service.py:628). -/
def rejectValues : List PyStr :=
  ["却下", "reject", "rejected", "ng", "fail"].map String.toList

/-- Webhook selection (monitor_service.py:627-629): always the default
endpoint; additionally the reject endpoint when the decision value is in
`rejectValues`. -/
def selectWebhooks (defaultUrl rejectUrl : PyStr) (dv : Option PyStr) : List PyStr :=
  match dv with
  | some v => if v ∈ rejectValues then [defaultUrl, rejectUrl] else [defaultUrl]
  | none => [defaultUrl]

/-- Whether the fallback JSON decision value is rejection-equivalent after
lower-casing. -/
def fallbackReject (jd : Option PyStr) : Bool :=
  match jd with
  | some v => decide (pyLower v ∈ rejectValues)
  | none => false

/-- The dispatch loop of `send_adaptive_card` (monitor_service.py:529-532)
with `requests.post` abstracted as `post : url → Bool` (`false` models a
raised transport error).  Falsy (empty) webhooks are skipped; the posts are
made sequentially and an exception propagates out of the loop, so the
function returns the list of webhooks to which a POST was actually attempted:
everything after a failing webhook is never attempted. -/
def sendAttempts (post : PyStr → Bool) : List PyStr → List PyStr
  | [] => []
  | w :: ws =>
    if w = [] then sendAttempts post ws
    else if post w then w :: sendAttempts post ws
    else [w]

/-- Proof-support: the common fallback pattern of build_case_json
(monitor_service.py:303-318) — run one cleaning pass, and if it emptied a
non-empty input return the input unchanged. -/
def fbApply (P : PyStr → Bool) (y : PyStr) : PyStr :=
  if cleanLines P y = [] ∧ y ≠ [] then y else cleanLines P y

/-- Proof-support: left-strip the first line of a line list. -/
def lstripFirst : List PyStr → List PyStr
  | [] => []
  | l :: t => lstrip l :: t

/-- Proof-support: right-strip the last line of a line list. -/
def rstripLast : List PyStr → List PyStr
  | [] => []
  | [l] => [rstrip l]
  | l :: t => l :: rstripLast t

/-- Proof-support: the effect of the global `strip()` on a joined line list
whose lines each contain a non-whitespace character: the first line is
left-stripped and the last line right-stripped. -/
def trimLines (ls : List PyStr) : List PyStr := rstripLast (lstripFirst ls)

theorem lstrip_eq_nil_iff (s : PyStr) : lstrip s = [] ↔ ∀ c ∈ s, pyIsSpace c = true := by
  induction s with
  | nil => simp [lstrip]
  | cons c t ih =>
    simp only [lstrip, List.dropWhile_cons] at *
    by_cases hc : pyIsSpace c = true
    · simp [hc, ih]
    · simp [hc]

theorem lstrip_head_not_space {s : PyStr} {c : Char} {t : PyStr} (h : lstrip s = c :: t) :
    pyIsSpace c = false := by
  induction s with
  | nil => simp [lstrip] at h
  | cons a s ih =>
    simp only [lstrip, List.dropWhile_cons] at h
    by_cases ha : pyIsSpace a = true
    · rw [if_pos ha] at h
      exact ih h
    · rw [if_neg ha] at h
      cases h
      simp at ha
      simp [ha]

theorem lstrip_idem (s : PyStr) : lstrip (lstrip s) = lstrip s := by
  cases h : lstrip s with
  | nil => simp [lstrip]
  | cons c t =>
    have hc := lstrip_head_not_space h
    simp [lstrip, List.dropWhile_cons, hc]

theorem mem_lstrip {c : Char} {s : PyStr} (h : c ∈ lstrip s) : c ∈ s :=
  List.dropWhile_subset _ h

theorem rstrip_cons (c : Char) (t : PyStr) :
    rstrip (c :: t) =
      if rstrip t = [] then (if pyIsSpace c = true then [] else [c]) else c :: rstrip t := by
  cases h : rstrip t with
  | nil => simp [rstrip, h]
  | cons r rs => simp [rstrip, h]

theorem rstrip_eq_nil_iff (s : PyStr) : rstrip s = [] ↔ ∀ c ∈ s, pyIsSpace c = true := by
  induction s with
  | nil => simp [rstrip]
  | cons c t ih =>
    rw [rstrip_cons]
    by_cases ht : rstrip t = []
    · rw [if_pos ht]
      by_cases hc : pyIsSpace c = true
      · rw [if_pos hc]
        simp only [List.mem_cons, true_iff]
        intro x hx
        rcases hx with rfl | hx
        · exact hc
        · exact (ih.mp ht) x hx
      · rw [if_neg hc]
        constructor
        · intro hbad
          exact absurd hbad (List.cons_ne_nil _ _)
        · intro hall
          exact absurd (hall c (List.mem_cons_self _ _)) hc
    · rw [if_neg ht]
      constructor
      · intro hbad
        exact absurd hbad (List.cons_ne_nil _ _)
      · intro hall
        exact absurd (ih.mpr (fun x hx => hall x (List.mem_cons_of_mem _ hx))) ht

theorem rstrip_getLast_not_space {s : PyStr} {c : Char}
    (h : (rstrip s).getLast? = some c) : pyIsSpace c = false := by
  induction s with
  | nil => simp [rstrip] at h
  | cons a t ih =>
    rw [rstrip_cons] at h
    by_cases ht : rstrip t = []
    · rw [if_pos ht] at h
      by_cases ha : pyIsSpace a = true
      · rw [if_pos ha] at h
        simp at h
      · rw [if_neg ha] at h
        simp only [List.getLast?_singleton, Option.some.injEq] at h
        subst h
        exact Bool.eq_false_iff.mpr ha
    · rw [if_neg ht] at h
      cases hr : rstrip t with
      | nil => exact absurd hr ht
      | cons r rs =>
        rw [hr, List.getLast?_cons_cons, ← hr] at h
        exact ih h

theorem rstrip_idem (s : PyStr) : rstrip (rstrip s) = rstrip s := by
  induction s with
  | nil => rfl
  | cons c t ih =>
    rw [rstrip_cons]
    by_cases ht : rstrip t = []
    · rw [if_pos ht]
      by_cases hc : pyIsSpace c = true
      · rw [if_pos hc]
        rfl
      · rw [if_neg hc]
        rw [rstrip_cons]
        simp [rstrip, hc]
    · rw [if_neg ht]
      rw [rstrip_cons, ih, if_neg ht]

theorem mem_rstrip {c : Char} {s : PyStr} (h : c ∈ rstrip s) : c ∈ s := by
  induction s with
  | nil => simp [rstrip] at h
  | cons a t ih =>
    rw [rstrip_cons] at h
    by_cases ht : rstrip t = []
    · rw [if_pos ht] at h
      by_cases ha : pyIsSpace a = true
      · rw [if_pos ha] at h
        cases h
      · rw [if_neg ha] at h
        simp only [List.mem_singleton] at h
        simp [h]
    · rw [if_neg ht] at h
      rcases List.mem_cons.mp h with rfl | h
      · simp
      · exact List.mem_cons_of_mem _ (ih h)

theorem rstrip_append (a b : PyStr) :
    rstrip (a ++ b) = if rstrip b = [] then rstrip a else a ++ rstrip b := by
  induction a with
  | nil =>
    simp only [List.nil_append]
    by_cases hb : rstrip b = []
    · simp [hb, rstrip]
    · simp [hb]
  | cons c t ih =>
    rw [List.cons_append, rstrip_cons, ih, rstrip_cons]
    by_cases hb : rstrip b = []
    · simp [hb]
    · simp only [if_neg hb]
      have hne : (t ++ rstrip b : PyStr) ≠ [] := by
        intro hcontra
        exact hb (List.append_eq_nil.mp hcontra).2
      rw [if_neg hne]
      simp

theorem lstrip_rstrip_comm (s : PyStr) : lstrip (rstrip s) = rstrip (lstrip s) := by
  induction s with
  | nil => rfl
  | cons c t ih =>
    by_cases hc : pyIsSpace c = true
    · have hl : lstrip (c :: t) = lstrip t := by
        simp [lstrip, List.dropWhile_cons, hc]
      rw [hl, rstrip_cons]
      by_cases ht : rstrip t = []
      · rw [if_pos ht, if_pos hc]
        have hall := (rstrip_eq_nil_iff t).mp ht
        have hlt : lstrip t = [] := (lstrip_eq_nil_iff t).mpr hall
        rw [hlt]
        rfl
      · rw [if_neg ht]
        have hstep : lstrip (c :: rstrip t) = lstrip (rstrip t) := by
          simp [lstrip, List.dropWhile_cons, hc]
        rw [hstep, ih]
    · have hl : lstrip (c :: t) = c :: t := by
        simp [lstrip, List.dropWhile_cons, hc]
      rw [hl, rstrip_cons]
      by_cases ht : rstrip t = []
      · rw [if_pos ht, if_neg hc]
        simp [lstrip, List.dropWhile_cons, hc]
      · rw [if_neg ht]
        simp [lstrip, List.dropWhile_cons, hc]

theorem pyStrip_idem (s : PyStr) : pyStrip (pyStrip s) = pyStrip s := by
  unfold pyStrip
  rw [lstrip_rstrip_comm, lstrip_idem, rstrip_idem]

theorem pyStrip_lstrip (s : PyStr) : pyStrip (lstrip s) = pyStrip s := by
  unfold pyStrip
  rw [lstrip_idem]

theorem pyStrip_rstrip (s : PyStr) : pyStrip (rstrip s) = pyStrip s := by
  unfold pyStrip
  rw [lstrip_rstrip_comm, rstrip_idem]

theorem pyStrip_eq_nil_iff (s : PyStr) : pyStrip s = [] ↔ ∀ c ∈ s, pyIsSpace c = true := by
  unfold pyStrip
  rw [rstrip_eq_nil_iff]
  constructor
  · intro h c hc
    by_cases hcs : pyIsSpace c = true
    · exact hcs
    · exfalso
      have hsplit : s.takeWhile pyIsSpace ++ s.dropWhile pyIsSpace = s :=
        List.takeWhile_append_dropWhile ..
      rw [← hsplit] at hc
      rcases List.mem_append.mp hc with h1 | h1
      · exact hcs (List.mem_takeWhile_imp h1)
      · exact hcs (h c h1)
  · intro h c hc
    exact h c (mem_lstrip hc)

theorem mem_pyStrip {c : Char} {s : PyStr} (h : c ∈ pyStrip s) : c ∈ s :=
  mem_lstrip (mem_rstrip h)

theorem pyStrip_getLast_not_space {s : PyStr} {c : Char}
    (h : (pyStrip s).getLast? = some c) : pyIsSpace c = false :=
  rstrip_getLast_not_space h

theorem joinNl_cons (l : PyStr) (h : PyStr) (t : List PyStr) :
    joinNl (l :: h :: t) = l ++ '\n' :: joinNl (h :: t) := by
  rfl

theorem joinNl_consHead (c : Char) (ps : List PyStr) :
    joinNl (consHead c ps) = c :: joinNl ps := by
  cases ps with
  | nil => rfl
  | cons h t =>
    cases t with
    | nil => rfl
    | cons h2 t2 => rfl

theorem pySplitlines_eq_nil_iff (s : PyStr) : pySplitlines s = [] ↔ s = [] := by
  cases s with
  | nil => simp [pySplitlines]
  | cons c t =>
    simp only [pySplitlines]
    by_cases hc : c = '\n'
    · simp [hc]
    · simp only [if_neg hc]
      constructor
      · intro h
        cases hcons : pySplitlines t with
        | nil => rw [hcons] at h; cases h
        | cons a b => rw [hcons] at h; cases h
      · intro h
        cases h

theorem mem_joinNl {c : Char} {l : PyStr} {ls : List PyStr}
    (hl : l ∈ ls) (hc : c ∈ l) : c ∈ joinNl ls := by
  induction ls with
  | nil => cases hl
  | cons a t ih =>
    cases t with
    | nil =>
      rcases List.mem_singleton.mp hl with rfl
      simpa [joinNl] using hc
    | cons b t2 =>
      rw [joinNl_cons]
      rcases List.mem_cons.mp hl with rfl | hl
      · exact List.mem_append.mpr (Or.inl hc)
      · exact List.mem_append.mpr (Or.inr (List.mem_cons_of_mem _ (ih hl)))

theorem pySplitlines_cons_newline (t : PyStr) :
    pySplitlines ('\n' :: t) = [] :: pySplitlines t := by
  simp [pySplitlines]

theorem pySplitlines_cons_other {c : Char} (hc : c ≠ '\n') (t : PyStr) :
    pySplitlines (c :: t) = consHead c (pySplitlines t) := by
  simp [pySplitlines, hc]

theorem pySplitlines_append_newline {l : PyStr} (hnl : '\n' ∉ l) (r : PyStr) :
    pySplitlines (l ++ '\n' :: r) = l :: pySplitlines r := by
  induction l with
  | nil =>
    simp only [List.nil_append]
    exact pySplitlines_cons_newline r
  | cons c t ih =>
    have hc : c ≠ '\n' := fun hcontra => hnl (hcontra ▸ List.mem_cons_self _ _)
    have hnl2 : '\n' ∉ t := fun hcontra => hnl (List.mem_cons_of_mem _ hcontra)
    rw [List.cons_append, pySplitlines_cons_other hc, ih hnl2]
    rfl

theorem pySplitlines_noNl_single {l : PyStr} (hnl : '\n' ∉ l) (hne : l ≠ []) :
    pySplitlines l = [l] := by
  induction l with
  | nil => cases hne rfl
  | cons c t ih =>
    have hc : c ≠ '\n' := fun hcontra => hnl (hcontra ▸ List.mem_cons_self _ _)
    have hnl2 : '\n' ∉ t := fun hcontra => hnl (List.mem_cons_of_mem _ hcontra)
    rw [pySplitlines_cons_other hc]
    cases ht : t with
    | nil => rfl
    | cons a b =>
      rw [← ht, ih hnl2 (by simp [ht])]
      rfl

theorem pySplitlines_joinNl {ls : List PyStr} (hne : ls ≠ [])
    (hl : ∀ l ∈ ls, l ≠ [] ∧ '\n' ∉ l) : pySplitlines (joinNl ls) = ls := by
  induction ls with
  | nil => cases hne rfl
  | cons a t ih =>
    cases t with
    | nil =>
      have ha := hl a (List.mem_cons_self _ _)
      simpa [joinNl] using pySplitlines_noNl_single ha.2 ha.1
    | cons b t2 =>
      rw [joinNl_cons]
      have ha := hl a (List.mem_cons_self _ _)
      rw [pySplitlines_append_newline ha.2]
      rw [ih (by simp) (fun x hx => hl x (List.mem_cons_of_mem _ hx))]

theorem joinNl_pySplitlines {s : PyStr} (h : s.getLast? ≠ some '\n') :
    joinNl (pySplitlines s) = s := by
  induction s with
  | nil => rfl
  | cons c t ih =>
    cases ht : t with
    | nil =>
      subst ht
      have hc : c ≠ '\n' := by
        intro hcontra
        exact h (by simp [hcontra])
      rw [pySplitlines_cons_other hc]
      rfl
    | cons a b =>
      subst ht
      have hlast : (a :: b).getLast? ≠ some '\n' := by
        rw [List.getLast?_cons_cons] at h
        exact h
      have hrec := ih hlast
      by_cases hc : c = '\n'
      · subst hc
        rw [pySplitlines_cons_newline]
        have hne : pySplitlines (a :: b) ≠ [] := by
          intro hcontra
          exact (by simp : (a :: b : PyStr) ≠ []) ((pySplitlines_eq_nil_iff _).mp hcontra)
        cases hps : pySplitlines (a :: b) with
        | nil => exact absurd hps hne
        | cons p ps =>
          rw [joinNl_cons]
          simp only [List.nil_append]
          rw [← hps, hrec]
      · rw [pySplitlines_cons_other hc, joinNl_consHead, hrec]

theorem pySplitlines_chars {s : PyStr} :
    ∀ l ∈ pySplitlines s, ∀ c ∈ l, c ∈ s ∧ c ≠ '\n' := by
  induction s with
  | nil => simp [pySplitlines]
  | cons a t ih =>
    by_cases ha : a = '\n'
    · subst ha
      rw [pySplitlines_cons_newline]
      intro l hl c hc
      rcases List.mem_cons.mp hl with rfl | hl
      · cases hc
      · have hmem := ih l hl c hc
        exact ⟨List.mem_cons_of_mem _ hmem.1, hmem.2⟩
    · rw [pySplitlines_cons_other ha]
      intro l hl c hc
      cases hps : pySplitlines t with
      | nil =>
        rw [hps] at hl
        rcases List.mem_singleton.mp hl with rfl
        rcases List.mem_singleton.mp hc with rfl
        exact ⟨List.mem_cons_self _ _, ha⟩
      | cons p ps =>
        rw [hps] at hl
        rcases List.mem_cons.mp hl with rfl | hl
        · rcases List.mem_cons.mp hc with rfl | hc
          · exact ⟨List.mem_cons_self _ _, ha⟩
          · have hmem := ih p (by rw [hps]; exact List.mem_cons_self _ _) c hc
            exact ⟨List.mem_cons_of_mem _ hmem.1, hmem.2⟩
        · have hmem := ih l (by rw [hps]; exact List.mem_cons_of_mem _ hl) c hc
          exact ⟨List.mem_cons_of_mem _ hmem.1, hmem.2⟩

theorem rstripLast_single (l : PyStr) : rstripLast [l] = [rstrip l] := rfl

theorem rstripLast_cons_cons (l b : PyStr) (t : List PyStr) :
    rstripLast (l :: b :: t) = l :: rstripLast (b :: t) := rfl

theorem rstripLast_ne_nil (x : PyStr) (xs : List PyStr) : rstripLast (x :: xs) ≠ [] := by
  cases xs with
  | nil => simp [rstripLast_single]
  | cons b t => simp [rstripLast_cons_cons]

theorem trimLines_ne_nil (x : PyStr) (xs : List PyStr) : trimLines (x :: xs) ≠ [] := by
  unfold trimLines lstripFirst
  exact rstripLast_ne_nil _ _

theorem lstrip_ne_nil_of_pyStrip {l : PyStr} (h : pyStrip l ≠ []) : lstrip l ≠ [] := by
  intro hcontra
  unfold pyStrip at h
  rw [hcontra] at h
  exact h rfl

theorem pyStrip_exists_not_space {l : PyStr} (h : pyStrip l ≠ []) :
    ∃ c ∈ l, pyIsSpace c = false := by
  by_contra hall
  push_neg at hall
  refine h ((pyStrip_eq_nil_iff l).mpr ?_)
  intro c hc
  have := hall c hc
  cases hb : pyIsSpace c with
  | false => exact absurd hb this
  | true => rfl

theorem rstrip_joinNl_ne_nil {b : PyStr} (t : List PyStr) (hb : pyStrip b ≠ []) :
    rstrip (joinNl (b :: t)) ≠ [] := by
  rcases pyStrip_exists_not_space hb with ⟨c, hcb, hcs⟩
  intro hcontra
  have hwc := (rstrip_eq_nil_iff _).mp hcontra c (mem_joinNl (List.mem_cons_self _ _) hcb)
  rw [hwc] at hcs
  cases hcs

theorem lstrip_joinNl {l : PyStr} (t : List PyStr) (hl : pyStrip l ≠ []) :
    lstrip (joinNl (l :: t)) = joinNl (lstrip l :: t) := by
  cases t with
  | nil => rfl
  | cons b t2 =>
    rw [joinNl_cons, joinNl_cons]
    unfold lstrip
    rw [List.dropWhile_append]
    have hne : (l.dropWhile pyIsSpace).isEmpty = false := by
      cases hd : l.dropWhile pyIsSpace with
      | nil => exact absurd hd (lstrip_ne_nil_of_pyStrip hl)
      | cons x xs => rfl
    rw [hne]
    simp

theorem rstrip_joinNl {ls : List PyStr} (hne : ls ≠ [])
    (hstrip : ∀ m ∈ ls, pyStrip m ≠ []) :
    rstrip (joinNl ls) = joinNl (rstripLast ls) := by
  induction ls with
  | nil => cases hne rfl
  | cons l t ih =>
    cases t with
    | nil => rfl
    | cons b t2 =>
      rw [joinNl_cons, rstripLast_cons_cons]
      rw [rstrip_append]
      have hJ : rstrip (joinNl (b :: t2)) ≠ [] :=
        rstrip_joinNl_ne_nil t2 (hstrip b (List.mem_cons_of_mem _ (List.mem_cons_self _ _)))
      have hcons : rstrip ('\n' :: joinNl (b :: t2)) = '\n' :: rstrip (joinNl (b :: t2)) := by
        rw [rstrip_cons]
        rw [if_neg hJ]
      rw [hcons]
      rw [if_neg (by simp [hJ] : ('\n' :: rstrip (joinNl (b :: t2)) : PyStr) ≠ [])]
      rw [ih (by simp) (fun m hm => hstrip m (List.mem_cons_of_mem _ hm))]
      cases hrl : rstripLast (b :: t2) with
      | nil => exact absurd hrl (rstripLast_ne_nil _ _)
      | cons p ps => rw [joinNl_cons]

theorem pyStrip_joinNl {ls : List PyStr} (hne : ls ≠ [])
    (hstrip : ∀ m ∈ ls, pyStrip m ≠ []) :
    pyStrip (joinNl ls) = joinNl (trimLines ls) := by
  cases ls with
  | nil => cases hne rfl
  | cons l t =>
    unfold pyStrip trimLines
    rw [lstrip_joinNl t (hstrip l (List.mem_cons_self _ _))]
    have hlf : lstripFirst (l :: t) = lstrip l :: t := rfl
    rw [hlf]
    refine rstrip_joinNl (by simp) ?_
    intro m hm
    rcases List.mem_cons.mp hm with rfl | hm
    · rw [pyStrip_lstrip]
      exact hstrip l (List.mem_cons_self _ _)
    · exact hstrip m (List.mem_cons_of_mem _ hm)

theorem mem_lstripFirst {l2 : PyStr} {ls : List PyStr} (h : l2 ∈ lstripFirst ls) :
    ∃ l1 ∈ ls, l2 = l1 ∨ l2 = lstrip l1 := by
  cases ls with
  | nil => cases h
  | cons a t =>
    rcases List.mem_cons.mp h with rfl | h
    · exact ⟨a, List.mem_cons_self _ _, Or.inr rfl⟩
    · exact ⟨l2, List.mem_cons_of_mem _ h, Or.inl rfl⟩

theorem mem_rstripLast {l2 : PyStr} {ls : List PyStr} (h : l2 ∈ rstripLast ls) :
    ∃ l1 ∈ ls, l2 = l1 ∨ l2 = rstrip l1 := by
  induction ls with
  | nil => cases h
  | cons a t ih =>
    cases t with
    | nil =>
      rw [rstripLast_single] at h
      rcases List.mem_singleton.mp h with rfl
      exact ⟨a, List.mem_cons_self _ _, Or.inr rfl⟩
    | cons b t2 =>
      rw [rstripLast_cons_cons] at h
      rcases List.mem_cons.mp h with rfl | h
      · exact ⟨_, List.mem_cons_self _ _, Or.inl rfl⟩
      · rcases ih h with ⟨l1, hl1, hor⟩
        exact ⟨l1, List.mem_cons_of_mem _ hl1, hor⟩

theorem mem_trimLines {l2 : PyStr} {ls : List PyStr} (h : l2 ∈ trimLines ls) :
    ∃ l1 ∈ ls, pyStrip l2 = pyStrip l1 ∧ ∀ c ∈ l2, c ∈ l1 := by
  unfold trimLines at h
  rcases mem_rstripLast h with ⟨m, hm, hor1⟩
  rcases mem_lstripFirst hm with ⟨l1, hl1, hor2⟩
  refine ⟨l1, hl1, ?_⟩
  rcases hor1 with rfl | rfl <;> rcases hor2 with rfl | rfl
  · exact ⟨rfl, fun c hc => hc⟩
  · exact ⟨pyStrip_lstrip l1, fun c hc => mem_lstrip hc⟩
  · exact ⟨pyStrip_rstrip m, fun c hc => mem_rstrip hc⟩
  · constructor
    · rw [pyStrip_rstrip, pyStrip_lstrip]
    · exact fun c hc => mem_lstrip (mem_rstrip hc)

theorem keepLine_iff {P : PyStr → Bool} {l : PyStr} :
    keepLine P l = true ↔ pyStrip l ≠ [] ∧ P (pyStrip l) = true := by
  unfold keepLine
  rw [Bool.and_eq_true, decide_eq_true_iff]

theorem keepLine_congr {P : PyStr → Bool} {l l2 : PyStr} (h : pyStrip l = pyStrip l2) :
    keepLine P l = keepLine P l2 := by
  unfold keepLine
  rw [h]

theorem cleanLines_strip (P : PyStr → Bool) (x : PyStr) :
    pyStrip (cleanLines P x) = cleanLines P x := by
  unfold cleanLines
  exact pyStrip_idem _

theorem cleanLines_eq_nil_iff (P : PyStr → Bool) (x : PyStr) :
    cleanLines P x = [] ↔ (pySplitlines x).filter (keepLine P) = [] := by
  unfold cleanLines
  constructor
  · intro h
    cases hks : (pySplitlines x).filter (keepLine P) with
    | nil => rfl
    | cons k ks =>
      exfalso
      have hkmem : k ∈ (pySplitlines x).filter (keepLine P) := by
        rw [hks]
        exact List.mem_cons_self _ _
      have hk : keepLine P k = true := (List.mem_filter.mp hkmem).2
      have hkne := (keepLine_iff.mp hk).1
      rcases pyStrip_exists_not_space hkne with ⟨c, hck, hcs⟩
      rw [hks] at h
      have hcJ : c ∈ joinNl (k :: ks) := mem_joinNl (List.mem_cons_self _ _) hck
      have hws := (pyStrip_eq_nil_iff _).mp h c hcJ
      rw [hws] at hcs
      cases hcs
  · intro h
    rw [h]
    rfl

theorem cleanLines_lines {P : PyStr → Bool} {x : PyStr} :
    ∀ l ∈ pySplitlines (cleanLines P x),
      ∃ l0 ∈ pySplitlines x, pyStrip l = pyStrip l0 ∧ keepLine P l0 = true := by
  intro l hl
  cases hks : (pySplitlines x).filter (keepLine P) with
  | nil =>
    rw [(cleanLines_eq_nil_iff P x).mpr hks] at hl
    cases hl
  | cons k ks =>
    have hmemks : ∀ m ∈ (k :: ks : List PyStr),
        pyStrip m ≠ [] ∧ keepLine P m = true ∧ m ∈ pySplitlines x := by
      intro m hm
      have hmf : m ∈ (pySplitlines x).filter (keepLine P) := by
        rw [hks]
        exact hm
      have hmf2 := List.mem_filter.mp hmf
      exact ⟨(keepLine_iff.mp hmf2.2).1, hmf2.2, hmf2.1⟩
    have heq : cleanLines P x = joinNl (trimLines (k :: ks)) := by
      unfold cleanLines
      rw [hks]
      exact pyStrip_joinNl (by simp) (fun m hm => (hmemks m hm).1)
    rw [heq] at hl
    have hlines : pySplitlines (joinNl (trimLines (k :: ks))) = trimLines (k :: ks) := by
      apply pySplitlines_joinNl (trimLines_ne_nil _ _)
      intro l2 hl2
      rcases mem_trimLines hl2 with ⟨l1, hl1, hstripEq, hsub⟩
      constructor
      · intro hcontra
        rw [hcontra] at hstripEq
        exact (hmemks l1 hl1).1 hstripEq.symm
      · intro hnl
        have hc := hsub '\n' hnl
        exact (pySplitlines_chars l1 (hmemks l1 hl1).2.2 '\n' hc).2 rfl
    rw [hlines] at hl
    rcases mem_trimLines hl with ⟨l1, hl1, hstripEq, hsub2⟩
    have hf := hmemks l1 hl1
    exact ⟨l1, hf.2.2, hstripEq, hf.2.1⟩

theorem cleanLines_self_of {P : PyStr → Bool} {y : PyStr}
    (hall : ∀ l ∈ pySplitlines y, keepLine P l = true) (hstr : pyStrip y = y) :
    cleanLines P y = y := by
  unfold cleanLines
  rw [List.filter_eq_self.mpr hall]
  cases hy : y with
  | nil =>
    subst hy
    rfl
  | cons c t =>
    rw [← hy]
    have hlast : y.getLast? ≠ some '\n' := by
      cases hgl : y.getLast? with
      | none => simp
      | some d =>
        have hd : pyIsSpace d = false :=
          pyStrip_getLast_not_space (by rw [hstr]; exact hgl)
        intro hcontra
        have hdn : d = '\n' := by
          injection hcontra
        rw [hdn] at hd
        cases hd
    rw [joinNl_pySplitlines hlast, hstr]

theorem cleanLines_lines_keep {P : PyStr → Bool} {x : PyStr} :
    ∀ l ∈ pySplitlines (cleanLines P x), keepLine P l = true := by
  intro l hl
  rcases cleanLines_lines l hl with ⟨l0, _, hsEq, hk⟩
  rw [keepLine_congr hsEq]
  exact hk

theorem cleanLines_lines_keep_trans {P Q : PyStr → Bool} {x : PyStr}
    (hx : ∀ l ∈ pySplitlines x, keepLine P l = true) :
    ∀ l ∈ pySplitlines (cleanLines Q x), keepLine P l = true := by
  intro l hl
  rcases cleanLines_lines l hl with ⟨l0, hl0, hsEq, _⟩
  rw [keepLine_congr hsEq]
  exact hx l0 hl0

theorem cleanLines_lines_fail_trans {P Q : PyStr → Bool} {x : PyStr}
    (hx : ∀ l ∈ pySplitlines x, keepLine P l = false) :
    ∀ l ∈ pySplitlines (cleanLines Q x), keepLine P l = false := by
  intro l hl
  rcases cleanLines_lines l hl with ⟨l0, hl0, hsEq, _⟩
  rw [keepLine_congr hsEq]
  exact hx l0 hl0

theorem cleanLines_eq_nil_iff_fail (P : PyStr → Bool) (y : PyStr) :
    cleanLines P y = [] ↔ ∀ l ∈ pySplitlines y, keepLine P l = false := by
  rw [cleanLines_eq_nil_iff, List.filter_eq_nil_iff]
  constructor
  · intro h l hl
    exact Bool.eq_false_iff.mpr (h l hl)
  · intro h l hl
    rw [h l hl]
    simp

theorem cleanLines_idem (P : PyStr → Bool) (x : PyStr) :
    cleanLines P (cleanLines P x) = cleanLines P x :=
  cleanLines_self_of cleanLines_lines_keep (cleanLines_strip P x)

theorem remove_logs_eq (y : PyStr) (m : Nat) :
    remove_logs y m = cleanLines (logKeep m) y := by
  unfold remove_logs
  split
  next h =>
    subst h
    rfl
  next h => rfl

theorem cleanWithFallback_eq (x : PyStr) : cleanWithFallback x = fbApply metaKeep x := rfl

theorem logsWithFallback_eq (m : Nat) (y : PyStr) :
    logsWithFallback m y = fbApply (logKeep m) y := by
  unfold logsWithFallback fbApply
  rw [remove_logs_eq]

theorem fbApply_of_ne_nil {P : PyStr → Bool} {y : PyStr} (h : cleanLines P y ≠ []) :
    fbApply P y = cleanLines P y := by
  unfold fbApply
  rw [if_neg (fun hc => h hc.1)]

theorem fbApply_of_nil {P : PyStr → Bool} {y : PyStr} (h : cleanLines P y = [])
    (hy : y ≠ []) : fbApply P y = y := by
  unfold fbApply
  rw [if_pos ⟨h, hy⟩]

theorem fbApply_nil (P : PyStr → Bool) : fbApply P [] = [] := by
  unfold fbApply
  rw [if_neg (fun hc => hc.2 rfl)]
  rfl

theorem fbApply_ne_nil {P : PyStr → Bool} {y : PyStr} (hy : y ≠ []) : fbApply P y ≠ [] := by
  unfold fbApply
  by_cases h : cleanLines P y = [] ∧ y ≠ []
  · rw [if_pos h]
    exact hy
  · rw [if_neg h]
    intro hc
    exact h ⟨hc, hy⟩

theorem fbApply_idem (P : PyStr → Bool) (x : PyStr) :
    fbApply P (fbApply P x) = fbApply P x := by
  by_cases hm : cleanLines P x = []
  · by_cases hx : x = []
    · subst hx
      rw [fbApply_nil, fbApply_nil]
    · rw [fbApply_of_nil hm hx, fbApply_of_nil hm hx]
  · rw [fbApply_of_ne_nil hm]
    have hself : cleanLines P (cleanLines P x) = cleanLines P x := cleanLines_idem P x
    rw [fbApply_of_ne_nil (by rw [hself]; exact hm), hself]

theorem cleanFull_eq (b : Bool) (m : Nat) (x : PyStr) :
    cleanFull b m x =
      if b then fbApply (logKeep m) (fbApply metaKeep x) else fbApply metaKeep x := by
  unfold cleanFull
  rw [cleanWithFallback_eq]
  cases b with
  | false => simp
  | true => simp [logsWithFallback_eq]

theorem cleanFull_idem (b : Bool) (m : Nat) (x : PyStr) :
    cleanFull b m (cleanFull b m x) = cleanFull b m x := by
  simp only [cleanFull_eq]
  cases b with
  | false => simpa using fbApply_idem metaKeep x
  | true =>
    simp only [eq_self_iff_true, if_true]
    by_cases hm : cleanLines metaKeep x = []
    · by_cases hx : x = []
      · subst hx
        simp [fbApply_nil]
      · have hM : fbApply metaKeep x = x := fbApply_of_nil hm hx
        have hfailx : ∀ l ∈ pySplitlines x, keepLine metaKeep l = false :=
          (cleanLines_eq_nil_iff_fail metaKeep x).mp hm
        by_cases hr : cleanLines (logKeep m) x = []
        · have hL : fbApply (logKeep m) x = x := fbApply_of_nil hr hx
          rw [hM, hL, hM, hL]
        · have hL : fbApply (logKeep m) x = cleanLines (logKeep m) x := fbApply_of_ne_nil hr
          have hfailr : ∀ l ∈ pySplitlines (cleanLines (logKeep m) x),
              keepLine metaKeep l = false :=
            cleanLines_lines_fail_trans hfailx
          have hmr : cleanLines metaKeep (cleanLines (logKeep m) x) = [] :=
            (cleanLines_eq_nil_iff_fail _ _).mpr hfailr
          have hMr : fbApply metaKeep (cleanLines (logKeep m) x) = cleanLines (logKeep m) x :=
            fbApply_of_nil hmr hr
          have hclr : cleanLines (logKeep m) (cleanLines (logKeep m) x) =
              cleanLines (logKeep m) x :=
            cleanLines_idem _ _
          have hLr : fbApply (logKeep m) (cleanLines (logKeep m) x) =
              cleanLines (logKeep m) x := by
            rw [fbApply_of_ne_nil (by rw [hclr]; exact hr), hclr]
          rw [hM, hL, hMr, hLr]
    · have hM : fbApply metaKeep x = cleanLines metaKeep x := fbApply_of_ne_nil hm
      have hkeepm : ∀ l ∈ pySplitlines (cleanLines metaKeep x), keepLine metaKeep l = true :=
        cleanLines_lines_keep
      have hstripm : pyStrip (cleanLines metaKeep x) = cleanLines metaKeep x :=
        cleanLines_strip _ _
      have hmm : cleanLines metaKeep (cleanLines metaKeep x) = cleanLines metaKeep x :=
        cleanLines_idem _ _
      by_cases hr : cleanLines (logKeep m) (cleanLines metaKeep x) = []
      · have hL : fbApply (logKeep m) (cleanLines metaKeep x) = cleanLines metaKeep x :=
          fbApply_of_nil hr hm
        have hMm : fbApply metaKeep (cleanLines metaKeep x) = cleanLines metaKeep x := by
          rw [fbApply_of_ne_nil (by rw [hmm]; exact hm), hmm]
        rw [hM, hL, hMm, hL]
      · have hL : fbApply (logKeep m) (cleanLines metaKeep x) =
            cleanLines (logKeep m) (cleanLines metaKeep x) :=
          fbApply_of_ne_nil hr
        have hkeepr_log : ∀ l ∈ pySplitlines (cleanLines (logKeep m) (cleanLines metaKeep x)),
            keepLine (logKeep m) l = true :=
          cleanLines_lines_keep
        have hkeepr_meta : ∀ l ∈ pySplitlines (cleanLines (logKeep m) (cleanLines metaKeep x)),
            keepLine metaKeep l = true :=
          cleanLines_lines_keep_trans hkeepm
        have hstripr := cleanLines_strip (logKeep m) (cleanLines metaKeep x)
        have hmr : cleanLines metaKeep (cleanLines (logKeep m) (cleanLines metaKeep x)) =
            cleanLines (logKeep m) (cleanLines metaKeep x) :=
          cleanLines_self_of hkeepr_meta hstripr
        have hMr : fbApply metaKeep (cleanLines (logKeep m) (cleanLines metaKeep x)) =
            cleanLines (logKeep m) (cleanLines metaKeep x) := by
          rw [fbApply_of_ne_nil (by rw [hmr]; exact hr), hmr]
        have hlr : cleanLines (logKeep m) (cleanLines (logKeep m) (cleanLines metaKeep x)) =
            cleanLines (logKeep m) (cleanLines metaKeep x) :=
          cleanLines_self_of hkeepr_log hstripr
        have hLr : fbApply (logKeep m) (cleanLines (logKeep m) (cleanLines metaKeep x)) =
            cleanLines (logKeep m) (cleanLines metaKeep x) := by
          rw [fbApply_of_ne_nil (by rw [hlr]; exact hr), hlr]
        rw [hM, hL, hMr, hLr]

theorem entry_set_data (e : Entry) (d : PyStr) : ({ e with data := d } : Entry).data = d := rfl

theorem dataLen_nil : dataLen [] = 0 := rfl

theorem dataLen_cons (e : Entry) (es : List Entry) :
    dataLen (e :: es) = e.data.length + dataLen es := by
  simp [dataLen]

theorem trimGo_dataLen_le (maxChars : Nat) (es : List Entry) :
    ∀ total : Nat, dataLen (trimGo maxChars es total) ≤ maxChars - total := by
  induction es with
  | nil =>
    intro total
    simp [trimGo, dataLen]
  | cons e es ih =>
    intro total
    simp only [trimGo]
    by_cases h1 : e.data = []
    · rw [if_pos h1]
      exact ih total
    · rw [if_neg h1]
      by_cases h2 : maxChars ≤ total
      · rw [if_pos h2]
        simp [dataLen]
      · rw [if_neg h2]
        by_cases h3 : maxChars - total < e.data.length
        · rw [if_pos h3]
          have hlen : (e.data.take (maxChars - total)).length = maxChars - total := by
            rw [List.length_take]
            omega
          by_cases h4 : maxChars ≤ total + (e.data.take (maxChars - total)).length
          · rw [if_pos h4]
            rw [dataLen_cons, dataLen_nil, entry_set_data, hlen]
            omega
          · exfalso
            rw [hlen] at h4
            omega
        · rw [if_neg h3]
          by_cases h4 : maxChars ≤ total + e.data.length
          · rw [if_pos h4]
            rw [dataLen_cons, dataLen_nil, entry_set_data]
            omega
          · rw [if_neg h4]
            rw [dataLen_cons, entry_set_data]
            have hrec := ih (total + e.data.length)
            omega

theorem trimGo_eq_self (maxChars : Nat) (es : List Entry) :
    ∀ total : Nat, (∀ e ∈ es, e.data ≠ []) → total + dataLen es < maxChars →
      trimGo maxChars es total = es := by
  induction es with
  | nil =>
    intro total _ _
    rfl
  | cons e es ih =>
    intro total hne hlt
    simp only [trimGo]
    have h1 : ¬e.data = [] := hne e (List.mem_cons_self _ _)
    rw [if_neg h1]
    rw [dataLen_cons] at hlt
    rw [if_neg (by omega : ¬maxChars ≤ total)]
    rw [if_neg (by omega : ¬maxChars - total < e.data.length)]
    rw [if_neg (by omega : ¬maxChars ≤ total + e.data.length)]
    rw [ih (total + e.data.length) (fun x hx => hne x (List.mem_cons_of_mem _ hx)) (by omega)]

theorem trimGo_data_ne_nil (maxChars : Nat) (es : List Entry) :
    ∀ (total : Nat) (e2 : Entry), e2 ∈ trimGo maxChars es total → e2.data ≠ [] := by
  induction es with
  | nil =>
    intro total e2 h
    simp [trimGo] at h
  | cons e es ih =>
    intro total e2 h
    simp only [trimGo] at h
    by_cases h1 : e.data = []
    · rw [if_pos h1] at h
      exact ih total e2 h
    · rw [if_neg h1] at h
      by_cases h2 : maxChars ≤ total
      · rw [if_pos h2] at h
        cases h
      · rw [if_neg h2] at h
        by_cases h3 : maxChars - total < e.data.length
        · rw [if_pos h3] at h
          rcases List.mem_cons.mp h with rfl | h
          · rw [entry_set_data]
            intro hcontra
            rcases List.take_eq_nil_iff.mp hcontra with hz | hz
            · omega
            · exact h1 hz
          · by_cases h4 : maxChars ≤ total + (e.data.take (maxChars - total)).length
            · rw [if_pos h4] at h
              cases h
            · rw [if_neg h4] at h
              exact ih _ e2 h
        · rw [if_neg h3] at h
          rcases List.mem_cons.mp h with rfl | h
          · rw [entry_set_data]
            exact h1
          · by_cases h4 : maxChars ≤ total + e.data.length
            · rw [if_pos h4] at h
              cases h
            · rw [if_neg h4] at h
              exact ih _ e2 h

theorem lastAnswerIndex_eq_none_iff (es : List Entry) :
    lastAnswerIndex es = none ↔ ∀ e ∈ es, e.etype ≠ EntryType.Answer := by
  induction es with
  | nil => simp [lastAnswerIndex]
  | cons e es ih =>
    simp only [lastAnswerIndex]
    cases h : lastAnswerIndex es with
    | some j =>
      constructor
      · intro habs
        cases habs
      · intro hall
        have hes : lastAnswerIndex es = none :=
          ih.mpr (fun x hx => hall x (List.mem_cons_of_mem _ hx))
        rw [hes] at h
        cases h
    | none =>
      by_cases he : e.etype = EntryType.Answer
      · rw [if_pos he]
        constructor
        · intro habs
          cases habs
        · intro hall
          exact absurd he (hall e (List.mem_cons_self _ _))
      · rw [if_neg he]
        simp only [true_iff]
        intro x hx
        rcases List.mem_cons.mp hx with rfl | hx
        · exact he
        · exact (ih.mp h) x hx

theorem lastAnswerIndex_spec (es : List Entry) :
    ∀ idx, lastAnswerIndex es = some idx →
      ∃ hlt : idx < es.length,
        (es.get ⟨idx, hlt⟩).etype = EntryType.Answer ∧
        ∀ j, ∀ hj : j < es.length, idx < j → (es.get ⟨j, hj⟩).etype ≠ EntryType.Answer := by
  induction es with
  | nil =>
    intro idx h
    simp [lastAnswerIndex] at h
  | cons e es ih =>
    intro idx h
    simp only [lastAnswerIndex] at h
    cases hes : lastAnswerIndex es with
    | some j =>
      rw [hes] at h
      injection h with h
      subst h
      rcases ih j hes with ⟨hlt, hans, hafter⟩
      refine ⟨by simp; omega, ?_, ?_⟩
      · simpa using hans
      · intro j2 hj2 hgt
        cases j2 with
        | zero => omega
        | succ k =>
          have hk : k < es.length := by
            simp at hj2
            omega
          have hget : (e :: es).get ⟨k + 1, hj2⟩ = es.get ⟨k, hk⟩ := by
            simp
          rw [hget]
          exact hafter k hk (by omega)
    | none =>
      rw [hes] at h
      by_cases he : e.etype = EntryType.Answer
      · rw [if_pos he] at h
        injection h with h
        subst h
        refine ⟨by simp, by simpa using he, ?_⟩
        intro j hj hgt
        cases j with
        | zero => omega
        | succ k =>
          have hk : k < es.length := by
            simp at hj
            omega
          have hget : (e :: es).get ⟨k + 1, hj⟩ = es.get ⟨k, hk⟩ := by
            simp
          rw [hget]
          exact (lastAnswerIndex_eq_none_iff es).mp hes _ (List.get_mem es k hk)
      · rw [if_neg he] at h
        cases h

theorem getLast?_cons_of_ne_nil {α : Type} {a : α} {l : List α} (h : l ≠ []) :
    (a :: l).getLast? = l.getLast? := by
  cases l with
  | nil => cases h rfl
  | cons b t => exact List.getLast?_cons_cons

theorem getLast?_take_succ {α : Type} (l : List α) :
    ∀ (n : Nat) (h : n < l.length), (l.take (n + 1)).getLast? = some (l.get ⟨n, h⟩) := by
  induction l with
  | nil =>
    intro n h
    simp at h
  | cons a t ih =>
    intro n h
    cases n with
    | zero => simp
    | succ k =>
      have hk : k < t.length := by
        simp at h
        omega
      have htne : t.take (k + 1) ≠ [] := by
        intro hcontra
        rcases List.take_eq_nil_iff.mp hcontra with hz | hz
        · cases hz
        · rw [hz] at hk
          simp at hk
      rw [List.take_succ_cons, getLast?_cons_of_ne_nil htne, ih k hk]
      simp

theorem stepRecord_of_noSep {rest : List PyStr} (h : ∀ l ∈ rest, isSepLine l = false) :
    stepRecord rest = (none, []) := by
  unfold stepRecord
  split
  · rfl
  next header rest2 h1 =>
    have hsub : ∀ l ∈ rest2, isSepLine l = false := by
      intro l hl
      apply h
      have hmem : l ∈ rest.dropWhile (fun x => x.isEmpty) := by
        rw [h1]
        exact List.mem_cons_of_mem _ hl
      exact List.dropWhile_subset _ hmem
    have h2 : rest2.dropWhile (fun x => !isSepLine x) = [] := by
      rw [List.dropWhile_eq_nil_iff]
      intro l hl
      rw [hsub l hl]
      rfl
    split
    · rfl
    next dv rest4 h3 =>
      rw [h2] at h3
      cases h3

theorem stepRecord_length_le (rest : List PyStr) :
    (stepRecord rest).2.length ≤ rest.length := by
  have hA : (rest.dropWhile (fun x => x.isEmpty)).length ≤ rest.length :=
    (List.dropWhile_sublist _).length_le
  unfold stepRecord
  split
  · simp
  next header rest2 h1 =>
    have hB : (rest2.dropWhile (fun x => !isSepLine x)).length ≤ rest2.length :=
      (List.dropWhile_sublist _).length_le
    split
    · simp
    next dv rest4 h2 =>
      have hC : (rest4.dropWhile (fun x => !isSepLine x)).length ≤ rest4.length :=
        (List.dropWhile_sublist _).length_le
      rw [h1] at hA
      rw [h2] at hB
      simp only [List.length_cons] at hA hB
      split
      · simp only
        omega
      next d raw h3 =>
        simp only
        omega

theorem parseGo_nil (fuel : Nat) : parseGo fuel [] = [] := by
  cases fuel with
  | zero => rfl
  | succ n => rfl

theorem parseGo_fuel_eq :
    ∀ (fuel1 : Nat) (ls : List PyStr) (fuel2 : Nat), ls.length ≤ fuel1 → ls.length ≤ fuel2 →
      parseGo fuel1 ls = parseGo fuel2 ls := by
  intro fuel1
  induction fuel1 with
  | zero =>
    intro ls fuel2 h1 _
    have hnil : ls = [] := List.length_eq_zero.mp (Nat.le_zero.mp h1)
    subst hnil
    rw [parseGo_nil, parseGo_nil]
  | succ a ih =>
    intro ls fuel2 h1 h2
    cases ls with
    | nil => rw [parseGo_nil, parseGo_nil]
    | cons l rest =>
      cases fuel2 with
      | zero =>
        simp at h2
      | succ b =>
        simp only [List.length_cons] at h1 h2
        simp only [parseGo]
        by_cases hsep : isSepLine l = true
        · rw [if_pos hsep, if_pos hsep]
          have hlen := stepRecord_length_le rest
          cases hsr : stepRecord rest with
          | mk oe rest5 =>
            rw [hsr] at hlen
            simp only at hlen
            cases oe with
            | none =>
              show parseGo a rest5 = parseGo b rest5
              exact ih rest5 b (by omega) (by omega)
            | some e =>
              show e :: parseGo a rest5 = e :: parseGo b rest5
              rw [ih rest5 b (by omega) (by omega)]
        · rw [if_neg hsep, if_neg hsep]
          exact ih rest b (by omega) (by omega)

theorem parseGo_eq_nil_of_noSep :
    ∀ (fuel : Nat) (ls : List PyStr), (∀ l ∈ ls, isSepLine l = false) →
      parseGo fuel ls = [] := by
  intro fuel
  induction fuel with
  | zero =>
    intro ls _
    rfl
  | succ n ih =>
    intro ls h
    cases ls with
    | nil => rfl
    | cons l rest =>
      have hl : ¬(isSepLine l = true) := by
        rw [h l (List.mem_cons_self _ _)]
        exact Bool.false_ne_true
      simp only [parseGo]
      rw [if_neg hl]
      exact ih rest (fun x hx => h x (List.mem_cons_of_mem _ hx))

theorem parseLoop_eq_nil_of_noSep :
    ∀ ls : List PyStr, (∀ l ∈ ls, isSepLine l = false) → parseLoop ls = [] := by
  intro ls h
  exact parseGo_eq_nil_of_noSep ls.length ls h

theorem parseLoop_fence_noSep {f : PyStr} {rest : List PyStr} (hf : isSepLine f = true)
    (h : ∀ l ∈ rest, isSepLine l = false) : parseLoop (f :: rest) = [] := by
  have hs := stepRecord_of_noSep h
  unfold parseLoop
  simp only [List.length_cons, parseGo]
  rw [if_pos hf, hs]
  show parseGo rest.length [] = []
  exact parseGo_nil _

theorem takeWhile_eq_self_of {α : Type} {p : α → Bool} :
    ∀ l : List α, (∀ a ∈ l, p a = true) → l.takeWhile p = l := by
  intro l
  induction l with
  | nil =>
    intro _
    rfl
  | cons a t ih =>
    intro h
    rw [List.takeWhile_cons, if_pos (h a (List.mem_cons_self _ _))]
    rw [ih (fun x hx => h x (List.mem_cons_of_mem _ hx))]

theorem stepRecord_blank {rest : List PyStr}
    (h : rest.dropWhile (fun x => x.isEmpty) = []) : stepRecord rest = (none, []) := by
  unfold stepRecord
  split
  · rfl
  next header rest2 hA =>
    rw [h] at hA
    cases hA

theorem stepRecord_no_divider {rest : List PyStr} {header : PyStr} {rest2 : List PyStr}
    (h1 : rest.dropWhile (fun x => x.isEmpty) = header :: rest2)
    (hns : ∀ l ∈ rest2, isSepLine l = false) : stepRecord rest = (none, []) := by
  unfold stepRecord
  split
  · rfl
  next header2 rest3 hA =>
    rw [h1] at hA
    injection hA with e1 e2
    subst e2
    have h2 : rest2.dropWhile (fun x => !isSepLine x) = [] := by
      rw [List.dropWhile_eq_nil_iff]
      intro l hl
      rw [hns l hl]
      rfl
    split
    · rfl
    next dv rest4 hB =>
      rw [h2] at hB
      cases hB

theorem stepRecord_no_close {rest : List PyStr} {header : PyStr}
    {rest2 : List PyStr} {dv : PyStr} {rest4 : List PyStr}
    (h1 : rest.dropWhile (fun x => x.isEmpty) = header :: rest2)
    (h2 : rest2.dropWhile (fun x => !isSepLine x) = dv :: rest4)
    (hns : ∀ l ∈ rest4, isSepLine l = false) :
    stepRecord rest =
      (match headerSearch header with
       | none => (none, [])
       | some dk =>
         (some { date := dk.1, etype := classifyType dk.2,
                 data := pyStrip (joinNl rest4) }, [])) := by
  unfold stepRecord
  split
  next hA =>
    rw [h1] at hA
    cases hA
  next header2 rest3 hA =>
    rw [h1] at hA
    injection hA with e1 e2
    subst e1
    subst e2
    split
    next hB =>
      rw [h2] at hB
      cases hB
    next dv2 rest5 hB =>
      rw [h2] at hB
      injection hB with e3 e4
      subst e4
      have hc : rest4.takeWhile (fun x => !isSepLine x) = rest4 :=
        takeWhile_eq_self_of rest4 (fun l hl => by rw [hns l hl]; rfl)
      have hr5 : rest4.dropWhile (fun x => !isSepLine x) = [] := by
        rw [List.dropWhile_eq_nil_iff]
        intro l hl
        rw [hns l hl]
        rfl
      rw [hc, hr5]
      cases hh : headerSearch header with
      | none => rfl
      | some dk =>
        cases dk with
        | mk d raw => rfl

theorem parseGo_fence (fuel : Nat) (f : PyStr) (rest : List PyStr)
    (hf : isSepLine f = true) :
    parseGo (fuel + 1) (f :: rest) =
      (match stepRecord rest with
       | (none, rest5) => parseGo fuel rest5
       | (some e, rest5) => e :: parseGo fuel rest5) := by
  simp only [parseGo]
  rw [if_pos hf]

theorem matchJudgeTok_cases {t r : PyStr} (h : matchJudgeTok t = some r) :
    r = tokApprove ∨ r = tokReject ∨ r = tokUnknown := by
  unfold matchJudgeTok at h
  split_ifs at h
  · injection h with h
    exact Or.inl h.symm
  · injection h with h
    exact Or.inr (Or.inl h.symm)
  · injection h with h
    exact Or.inr (Or.inr h.symm)

theorem matchJudgeAt_cases {s r : PyStr} (h : matchJudgeAt s = some r) :
    r = tokApprove ∨ r = tokReject ∨ r = tokUnknown := by
  unfold matchJudgeAt at h
  split_ifs at h
  exact matchJudgeTok_cases h

theorem searchJudge_cases : ∀ s r : PyStr, searchJudge s = some r →
    r = tokApprove ∨ r = tokReject ∨ r = tokUnknown := by
  intro s
  induction s with
  | nil =>
    intro r h
    cases h
  | cons c t ih =>
    intro r h
    simp only [searchJudge] at h
    cases hm : matchJudgeAt (c :: t) with
    | some x =>
      rw [hm] at h
      injection h with h
      subst h
      exact matchJudgeAt_cases hm
    | none =>
      rw [hm] at h
      exact ih r h

theorem sendAttempts_all_ok (post : PyStr → Bool) :
    ∀ ws : List PyStr, (∀ w ∈ ws, w ≠ [] → post w = true) →
      sendAttempts post ws = ws.filter (fun w => decide (w ≠ [])) := by
  intro ws
  induction ws with
  | nil =>
    intro _
    rfl
  | cons w ws ih =>
    intro h
    simp only [sendAttempts, List.filter_cons]
    by_cases hw : w = []
    · rw [if_pos hw]
      have hd : (decide (w ≠ []) : Bool) = false := by
        simp [hw]
      rw [hd]
      simp only [Bool.false_eq_true, if_false]
      exact ih (fun x hx hxne => h x (List.mem_cons_of_mem _ hx) hxne)
    · rw [if_neg hw, if_pos (h w (List.mem_cons_self _ _) hw)]
      have hd : (decide (w ≠ []) : Bool) = true := by
        simp [hw]
      rw [hd]
      simp only [if_true]
      rw [ih (fun x hx hxne => h x (List.mem_cons_of_mem _ hx) hxne)]

theorem sendAttempts_fail (post : PyStr → Bool) :
    ∀ (pre : List PyStr) (w : PyStr) (suf : List PyStr),
      (∀ x ∈ pre, x ≠ [] → post x = true) → w ≠ [] → post w = false →
      sendAttempts post (pre ++ w :: suf) =
        pre.filter (fun x => decide (x ≠ [])) ++ [w] := by
  intro pre
  induction pre with
  | nil =>
    intro w suf hpre hw hpost
    simp only [List.nil_append, sendAttempts]
    rw [if_neg hw]
    rw [if_neg (by rw [hpost]; exact Bool.false_ne_true)]
    simp
  | cons x pre ih =>
    intro w suf hpre hw hpost
    simp only [List.cons_append, sendAttempts, List.filter_cons]
    by_cases hx : x = []
    · rw [if_pos hx]
      have hd : (decide (x ≠ []) : Bool) = false := by
        simp [hx]
      rw [hd]
      simp only [Bool.false_eq_true, if_false]
      exact ih w suf (fun y hy => hpre y (List.mem_cons_of_mem _ hy)) hw hpost
    · rw [if_neg hx, if_pos (hpre x (List.mem_cons_self _ _) hx)]
      have hd : (decide (x ≠ []) : Bool) = true := by
        simp [hx]
      rw [hd]
      simp only [if_true]
      rw [List.append_eq, ih w suf (fun y hy => hpre y (List.mem_cons_of_mem _ hy)) hw hpost]
      rfl

theorem gate_nil (b : Bool) : completenessGate [] b = GateResult.skippedNoEntries := rfl

theorem completenessGate_some {entries : List Entry} {e : Entry} {b : Bool}
    (h : entries.getLast? = some e) :
    completenessGate entries b =
      if e.etype ≠ EntryType.Answer then
        (if b then
          (match lastAnswerIndex entries with
            | none => GateResult.skippedNoAnswerEntry
            | some idx => GateResult.truncatedToLastAnswer (entries.take (idx + 1)))
         else GateResult.skippedLastNotAnswer)
      else GateResult.proceed entries := by
  unfold completenessGate
  rw [h]

theorem gate_proceed {entries : List Entry} {e : Entry} (h : entries.getLast? = some e)
    (ha : e.etype = EntryType.Answer) (b : Bool) :
    completenessGate entries b = GateResult.proceed entries := by
  rw [completenessGate_some h, if_neg (fun hne => hne ha)]

theorem gate_skip_last {entries : List Entry} {e : Entry} (h : entries.getLast? = some e)
    (hne : e.etype ≠ EntryType.Answer) :
    completenessGate entries false = GateResult.skippedLastNotAnswer := by
  rw [completenessGate_some h, if_pos hne]
  rfl

theorem gate_no_answer {entries : List Entry} {e : Entry} (h : entries.getLast? = some e)
    (hne : e.etype ≠ EntryType.Answer) (hnone : lastAnswerIndex entries = none) :
    completenessGate entries true = GateResult.skippedNoAnswerEntry := by
  rw [completenessGate_some h, if_pos hne]
  simp only [eq_self_iff_true, if_true]
  rw [hnone]

theorem gate_truncate {entries : List Entry} {e : Entry} {idx : Nat}
    (h : entries.getLast? = some e) (hne : e.etype ≠ EntryType.Answer)
    (hidx : lastAnswerIndex entries = some idx) :
    completenessGate entries true = GateResult.truncatedToLastAnswer (entries.take (idx + 1)) := by
  rw [completenessGate_some h, if_pos hne]
  simp only [eq_self_iff_true, if_true]
  rw [hidx]

/-- Claim C1: the completeness gate of `process_case`, evaluated on the cleaned
transcript before any oracle call. A transcript with zero entries is skipped
with outcome "skipped: no entries"; one whose last entry is of type Answer
always proceeds to judgement; one whose last entry is not of type Answer is
skipped with outcome "skipped: last entry not answer" when partial mode is
off; with partial mode on, the transcript is truncated to end at the nearest
preceding Answer entry (the greatest Answer index; every later entry is
non-Answer) with outcome "partial", or skipped with outcome "skipped: no
answer entry" when no entry of the transcript is an Answer. -/
theorem claim_C1_completeness_gate (entries : List Entry) (allowTrunc : Bool) :
    (entries = [] → completenessGate entries allowTrunc = GateResult.skippedNoEntries)
    ∧ (∀ e, entries.getLast? = some e → e.etype = EntryType.Answer →
        completenessGate entries allowTrunc = GateResult.proceed entries)
    ∧ (∀ e, entries.getLast? = some e → e.etype ≠ EntryType.Answer → allowTrunc = false →
        completenessGate entries allowTrunc = GateResult.skippedLastNotAnswer)
    ∧ (∀ e, entries.getLast? = some e → e.etype ≠ EntryType.Answer → allowTrunc = true →
        (lastAnswerIndex entries = none →
          completenessGate entries allowTrunc = GateResult.skippedNoAnswerEntry ∧
          ∀ e2 ∈ entries, e2.etype ≠ EntryType.Answer)
        ∧ (∀ idx, lastAnswerIndex entries = some idx →
            completenessGate entries allowTrunc =
              GateResult.truncatedToLastAnswer (entries.take (idx + 1)) ∧
            ∃ hlt : idx < entries.length,
              (entries.take (idx + 1)).getLast? = some (entries.get ⟨idx, hlt⟩) ∧
              (entries.get ⟨idx, hlt⟩).etype = EntryType.Answer ∧
              ∀ j, ∀ hj : j < entries.length, idx < j →
                (entries.get ⟨j, hj⟩).etype ≠ EntryType.Answer)) := by
  refine ⟨?_, ?_, ?_, ?_⟩
  · intro h
    subst h
    exact gate_nil allowTrunc
  · intro e he hans
    exact gate_proceed he hans allowTrunc
  · intro e he hne hflag
    subst hflag
    exact gate_skip_last he hne
  · intro e he hne hflag
    subst hflag
    constructor
    · intro hnone
      exact ⟨gate_no_answer he hne hnone, (lastAnswerIndex_eq_none_iff entries).mp hnone⟩
    · intro idx hidx
      rcases lastAnswerIndex_spec entries idx hidx with ⟨hlt, hans, hafter⟩
      exact ⟨gate_truncate he hne hidx,
        hlt, getLast?_take_succ entries idx hlt, hans, hafter⟩

/-- Witness for C1 at a concrete transcript: an Answer followed by a Question,
partial mode on, truncates to the Answer. -/
theorem claim_C1_witness :
    completenessGate
        [⟨[], EntryType.Answer, ['a']⟩, ⟨[], EntryType.Question, ['b']⟩] true =
      GateResult.truncatedToLastAnswer [⟨[], EntryType.Answer, ['a']⟩] :=
  (((claim_C1_completeness_gate
      [⟨[], EntryType.Answer, ['a']⟩, ⟨[], EntryType.Question, ['b']⟩] true).2.2.2
    ⟨[], EntryType.Question, ['b']⟩ rfl (by decide) rfl).2 0 (by decide)).1

/-- Claim C2 counterexample: on the oracle reply `{"decision": "却下"}` the
primary parse yields nothing and the fallback decision value `却下` is not in
the claim's English synonym set, yet the code selects the reject endpoint in
addition to the default endpoint — the claim's "for every other verdict the
default endpoint alone" fails. -/
theorem claim_C2_counterexample :
    searchJudge ("\x7b\"decision\": \"却下\"\x7d".toList) = none ∧
    pyLower "却下".toList ∉ (["reject", "rejected", "ng", "fail"].map String.toList) ∧
    selectWebhooks "default-url".toList "reject-url".toList
        (decisionValue (searchJudge ("\x7b\"decision\": \"却下\"\x7d".toList))
          (some "却下".toList)) =
      ["default-url".toList, "reject-url".toList] := by
  decide

theorem decisionValue_some (t : PyStr) (jd : Option PyStr) :
    decisionValue (some t) jd = some t := rfl

theorem decisionValue_none_some (d : PyStr) :
    decisionValue none (some d) = some (pyLower d) := rfl

theorem decisionValue_none_none : decisionValue none none = none := rfl

theorem selectWebhooks_some (d r v : PyStr) :
    selectWebhooks d r (some v) = if v ∈ rejectValues then [d, r] else [d] := rfl

theorem selectWebhooks_none (d r : PyStr) : selectWebhooks d r none = [d] := rfl

/-- Claim C2 as amended: the reject endpoint is added exactly when the derived
decision value is in the full rejection set `{却下, reject, rejected, ng,
fail}` — via the localized token from the primary parse, or, only when the
primary parse yields nothing, via the lower-cased fallback JSON `decision`
value (`jd` abstracts `str(llm_json.get("decision",""))` of a truthy dict
result of `parse_llm_json`); every other verdict selects the default endpoint
alone. -/
theorem claim_C2_reject_routing (text : PyStr) (jd : Option PyStr)
    (defaultUrl rejectUrl : PyStr) :
    selectWebhooks defaultUrl rejectUrl (decisionValue (searchJudge text) jd) =
      if searchJudge text = some tokReject ∨
          (searchJudge text = none ∧ fallbackReject jd = true)
      then [defaultUrl, rejectUrl]
      else [defaultUrl] := by
  cases hres : searchJudge text with
  | some r =>
    rcases searchJudge_cases text r hres with rfl | rfl | rfl
    · have hc : ¬(some tokApprove = some tokReject ∨
          (some tokApprove = (none : Option PyStr) ∧ fallbackReject jd = true)) := by
        rintro (h | ⟨h2, _⟩)
        · have hcontra : tokApprove = tokReject := by injection h
          exact (by decide : tokApprove ≠ tokReject) hcontra
        · cases h2
      rw [decisionValue_some, selectWebhooks_some,
        if_neg (by decide : ¬tokApprove ∈ rejectValues), if_neg hc]
    · rw [decisionValue_some, selectWebhooks_some,
        if_pos (by decide : tokReject ∈ rejectValues), if_pos (Or.inl rfl)]
    · have hc : ¬(some tokUnknown = some tokReject ∨
          (some tokUnknown = (none : Option PyStr) ∧ fallbackReject jd = true)) := by
        rintro (h | ⟨h2, _⟩)
        · have hcontra : tokUnknown = tokReject := by injection h
          exact (by decide : tokUnknown ≠ tokReject) hcontra
        · cases h2
      rw [decisionValue_some, selectWebhooks_some,
        if_neg (by decide : ¬tokUnknown ∈ rejectValues), if_neg hc]
  | none =>
    cases jd with
    | none =>
      have hc : ¬((none : Option PyStr) = some tokReject ∨
          ((none : Option PyStr) = (none : Option PyStr) ∧ fallbackReject none = true)) := by
        rintro (h | ⟨_, h2⟩)
        · cases h
        · exact (by decide : fallbackReject none ≠ true) h2
      rw [decisionValue_none_none, selectWebhooks_none, if_neg hc]
    | some d =>
      rw [decisionValue_none_some, selectWebhooks_some]
      by_cases hd : pyLower d ∈ rejectValues
      · rw [if_pos hd, if_pos (Or.inr ⟨rfl, decide_eq_true hd⟩)]
      · have hc : ¬((none : Option PyStr) = some tokReject ∨
            ((none : Option PyStr) = (none : Option PyStr) ∧
              fallbackReject (some d) = true)) := by
          rintro (h | ⟨_, h2⟩)
          · cases h
          · exact hd (of_decide_eq_true h2)
        rw [if_neg hd, if_neg hc]

/-- Claim C3 counterexample: with two non-empty targets and a transport error
on the first, the second target is never attempted — the dispatch loop of
`send_adaptive_card` has no per-target error handling, so the claim's delivery
independence fails. -/
theorem claim_C3_counterexample :
    ['b'] ∉ sendAttempts (fun w => decide (w ≠ ['a'])) [['a'], ['b']] ∧
    sendAttempts (fun w => decide (w ≠ ['a'])) [['a'], ['b']] = [['a']] := by
  decide

/-- Claim C3 as amended: dispatch is sequential; when every non-empty target
posts successfully, exactly the non-empty targets are attempted, and a raised
transport error on one target aborts the loop — the targets before it are
attempted, the failing target is attempted, and no later target is. -/
theorem claim_C3_delivery (post : PyStr → Bool) :
    (∀ ws, (∀ x ∈ ws, x ≠ [] → post x = true) →
      sendAttempts post ws = ws.filter (fun x => decide (x ≠ [])))
    ∧ (∀ pre w suf, (∀ x ∈ pre, x ≠ [] → post x = true) → w ≠ [] → post w = false →
      sendAttempts post (pre ++ w :: suf) =
        pre.filter (fun x => decide (x ≠ [])) ++ [w]) :=
  ⟨sendAttempts_all_ok post, sendAttempts_fail post⟩

/-- Witness for C3 at a concrete dispatch: targets `c`, `a`, `b` with a
failure on `a` attempt exactly `c` then `a`. -/
theorem claim_C3_witness :
    sendAttempts (fun w => decide (w ≠ ['a'])) ([['c']] ++ ['a'] :: [['b']]) =
      [['c'], ['a']] :=
  (claim_C3_delivery (fun w => decide (w ≠ ['a']))).2
    [['c']] ['a'] [['b']] (by decide) (by decide) (by decide)

/-- Claim C4 counterexample: under the default configuration the five-line
input of the claim does not yield an entry with data "Hello" — the line
`------` (ASCII hyphens) does not match the fence pattern `^ー+$`, so the
final `ー` line becomes the record's divider and the body is empty. -/
theorem claim_C4_counterexample :
    parse_entries ("ー\n2024/01/01 09:00 QUESTION\n------\nHello\nー".toList) ≠
      [{ date := "2024/01/01 09:00".toList, etype := EntryType.Question,
         data := "Hello".toList }] := by
  decide

/-- Claim C4 as amended: parsing the five-line input yields exactly one entry
with date "2024/01/01 09:00", type Question, and empty data: `------` is not a
fence under `^ー+$`, so the scan for the divider runs past `Hello` to the
final `ー`, leaving no body lines. -/
theorem claim_C4_example_parse :
    parse_entries ("ー\n2024/01/01 09:00 QUESTION\n------\nHello\nー".toList) =
      [{ date := "2024/01/01 09:00".toList, etype := EntryType.Question,
         data := [] }] := by
  decide

/-- Claim C5 counterexample: a trailing record with open and divide fences but
no close fence before end of input is not discarded: it is flushed with the
remaining lines as its body. -/
theorem claim_C5_counterexample :
    parse_entries ("ー\n2024/01/01 09:00 QUESTION\nー\nHello".toList) =
      [{ date := "2024/01/01 09:00".toList, etype := EntryType.Question,
         data := "Hello".toList }] ∧
    parse_entries ("ー\n2024/01/01 09:00 QUESTION\nー\nHello".toList) ≠ [] := by
  decide

/-- Claim C5 as amended: a trailing candidate record lacking its open fence
or its divide fence yields no entry, while a record lacking only its close
fence is not discarded on that account — with a matching header it is flushed
with body equal to all remaining lines after the divide fence, and with a
non-matching header it is discarded for the header mismatch, as any record
is.  Each conjunct quantifies over every loop state: the parse of any input
is the iterated dispatch of `parseGo` on suffixes, so a trailing candidate
record in any text is processed as `parseGo (fuel + 1) (f :: rest)` for the
suffix `f :: rest` beginning at its opening fence (and `parseGo_fuel_eq`
makes the result fuel-independent).  In order: remaining lines with no fence
produce nothing; from an opening fence, only blank lines to end of input
discard the record and end the parse; a header with no further fence before
end of input discards the record and ends the parse; and open plus divide
fences with no close fence yield exactly the one flushed entry when the
header matches (body = all lines after the divider), and nothing when it
does not. -/
theorem claim_C5_unterminated :
    (∀ ls : List PyStr, (∀ l ∈ ls, isSepLine l = false) → parseLoop ls = [])
    ∧ (∀ (fuel : Nat) (f : PyStr) (rest : List PyStr), isSepLine f = true →
        rest.dropWhile (fun x => x.isEmpty) = [] →
        parseGo (fuel + 1) (f :: rest) = [])
    ∧ (∀ (fuel : Nat) (f : PyStr) (rest : List PyStr) (header : PyStr)
        (rest2 : List PyStr), isSepLine f = true →
        rest.dropWhile (fun x => x.isEmpty) = header :: rest2 →
        (∀ l ∈ rest2, isSepLine l = false) →
        parseGo (fuel + 1) (f :: rest) = [])
    ∧ (∀ (fuel : Nat) (f : PyStr) (rest : List PyStr) (header : PyStr)
        (rest2 : List PyStr) (dv : PyStr) (rest4 : List PyStr),
        isSepLine f = true →
        rest.dropWhile (fun x => x.isEmpty) = header :: rest2 →
        rest2.dropWhile (fun x => !isSepLine x) = dv :: rest4 →
        (∀ l ∈ rest4, isSepLine l = false) →
        parseGo (fuel + 1) (f :: rest) =
          (match headerSearch header with
           | none => []
           | some dk =>
             [{ date := dk.1, etype := classifyType dk.2,
                data := pyStrip (joinNl rest4) }])) := by
  refine ⟨parseLoop_eq_nil_of_noSep, ?_, ?_, ?_⟩
  · intro fuel f rest hf hb
    rw [parseGo_fence fuel f rest hf, stepRecord_blank hb]
    show parseGo fuel [] = []
    exact parseGo_nil fuel
  · intro fuel f rest header rest2 hf h1 hns
    rw [parseGo_fence fuel f rest hf, stepRecord_no_divider h1 hns]
    show parseGo fuel [] = []
    exact parseGo_nil fuel
  · intro fuel f rest header rest2 dv rest4 hf h1 h2 hns
    rw [parseGo_fence fuel f rest hf, stepRecord_no_close h1 h2 hns]
    cases hh : headerSearch header with
    | none =>
      show parseGo fuel [] = []
      exact parseGo_nil fuel
    | some dk =>
      cases dk with
      | mk d raw =>
        show ({ date := d, etype := classifyType raw,
                data := pyStrip (joinNl rest4) } : Entry) :: parseGo fuel [] =
             [{ date := d, etype := classifyType raw, data := pyStrip (joinNl rest4) }]
        rw [parseGo_nil]

/-- Witness for C5 at a concrete loop state: an opening fence followed by a
single non-fence line (a header with no divider before end of input) parses
to no entries. -/
theorem claim_C5_witness : parseLoop [['ー'], ['x']] = [] :=
  claim_C5_unterminated.2.2.1 1 ['ー'] [['x']] ['x'] [] (by decide) (by decide) (by decide)

/-- Claim C6 counterexample: an entry with an empty body is dropped by the
trimmer even when the total input size is below the budget, so the output is
not the unchanged input. -/
theorem claim_C6_counterexample :
    dataLen [({ date := [], etype := EntryType.Question, data := [] } : Entry)] < 5 ∧
    trim_entries [({ date := [], etype := EntryType.Question, data := [] } : Entry)] 5 ≠
      [({ date := [], etype := EntryType.Question, data := [] } : Entry)] := by
  decide

/-- Claim C6 as amended: the trimmer's output never exceeds the budget; when
the total input body size is strictly below the budget AND every entry body is
non-empty, the output equals the input unchanged (entries with empty bodies
are always dropped); and trimming entries of 4000 and 4000 characters with
budget 6000 keeps the first in full, truncates the second to its
2000-character prefix, and drops all following entries. -/
theorem claim_C6_trimmer (maxChars : Nat) (es : List Entry) :
    dataLen (trim_entries es maxChars) ≤ maxChars
    ∧ ((∀ e ∈ es, e.data ≠ []) → dataLen es < maxChars → trim_entries es maxChars = es)
    ∧ trim_entries
        [⟨"d1".toList, EntryType.Answer, List.replicate 4000 'a'⟩,
         ⟨"d2".toList, EntryType.Question, List.replicate 4000 'b'⟩,
         ⟨"d3".toList, EntryType.Answer, List.replicate 100 'c'⟩] 6000 =
        [⟨"d1".toList, EntryType.Answer, List.replicate 4000 'a'⟩,
         ⟨"d2".toList, EntryType.Question, List.replicate 2000 'b'⟩] := by
  refine ⟨?_, ?_, ?_⟩
  · simpa using trimGo_dataLen_le maxChars es 0
  · intro h1 h2
    exact trimGo_eq_self maxChars es 0 h1 (by omega)
  · unfold trim_entries
    norm_num [trimGo, List.length_replicate, List.take_replicate, entry_set_data,
      List.replicate_eq_nil_iff]

/-- Witness for C6 at a concrete input: a single non-empty entry below the
budget passes through unchanged. -/
theorem claim_C6_witness :
    trim_entries [⟨[], EntryType.Answer, ['x']⟩] 5 = [⟨[], EntryType.Answer, ['x']⟩] :=
  (claim_C6_trimmer 5 [⟨[], EntryType.Answer, ['x']⟩]).2.1 (by decide) (by decide)

/-- Claim C7: cleaning never maps a non-empty body to an empty one — the meta
pass with its fallback, the log pass with its fallback, and their composition
as applied per entry in `build_case_json` each return a non-empty result on
non-empty input (the recovery is silent: the functions simply return the
pre-pass text). -/
theorem claim_C7_cleaning_fallback (maxLineLen : Nat) (x y : PyStr) :
    (x ≠ [] → cleanWithFallback x ≠ [])
    ∧ (y ≠ [] → logsWithFallback maxLineLen y ≠ [])
    ∧ (x ≠ [] → cleanFull true maxLineLen x ≠ []) := by
  refine ⟨?_, ?_, ?_⟩
  · intro hx
    rw [cleanWithFallback_eq]
    exact fbApply_ne_nil hx
  · intro hy
    rw [logsWithFallback_eq]
    exact fbApply_ne_nil hy
  · intro hx
    rw [cleanFull_eq]
    simp only [eq_self_iff_true, if_true]
    exact fbApply_ne_nil (fbApply_ne_nil hx)

/-- Witness for C7 at a concrete body. -/
theorem claim_C7_witness : cleanFull true 200 ['a'] ≠ [] :=
  (claim_C7_cleaning_fallback 200 ['a'] ['a']).2.2 (by decide)

/-- Claim C8: per-entry cleaning is idempotent — the meta-removal pass and,
when enabled, the log-removal pass with its configured threshold, each with
its fallback-to-input behaviour, applied twice give the same result as
applied once, for every string, threshold and enable flag. -/
theorem claim_C8_cleaning_idempotent (logEnabled : Bool) (maxLineLen : Nat) (x : PyStr) :
    cleanFull logEnabled maxLineLen (cleanFull logEnabled maxLineLen x) =
      cleanFull logEnabled maxLineLen x :=
  cleanFull_idem logEnabled maxLineLen x

/-- Claim C10: every entry produced by the extraction-cleaning-trimming
pipeline `build_case_json` has a non-empty data string, for every raw
transcript text, character budget and log-filter configuration. -/
theorem claim_C10_nonempty_bodies (text : PyStr) (maxChars : Nat) (lf : LogFilter) :
    ∀ e ∈ build_case_json text maxChars lf, e.data ≠ [] := by
  intro e he
  simp only [build_case_json, trim_entries] at he
  exact trimGo_data_ne_nil maxChars _ 0 e he

/-- Witness for C10 at a concrete transcript. -/
theorem claim_C10_witness :
    ({ date := "2024/01/01 09:00".toList, etype := EntryType.Question,
       data := "Hello".toList } : Entry).data ≠ [] :=
  claim_C10_nonempty_bodies ("ー\n2024/01/01 09:00 QUESTION\nー\nHello".toList) 6000
    ⟨true, 200⟩ _ (by decide)

/-- Claim C9 counterexample: a transcript whose entries after the last Answer
are all Unknown (`[Answer, Unknown]`) is not treated as ending in an Answer:
with partial mode off the case is skipped, not proceeded. -/
theorem claim_C9_counterexample :
    completenessGate
        [⟨[], EntryType.Answer, ['a']⟩, ⟨[], EntryType.Unknown, ['b']⟩] false ≠
      GateResult.proceed
        [⟨[], EntryType.Answer, ['a']⟩, ⟨[], EntryType.Unknown, ['b']⟩] ∧
    completenessGate
        [⟨[], EntryType.Answer, ['a']⟩, ⟨[], EntryType.Unknown, ['b']⟩] false =
      GateResult.skippedLastNotAnswer := by
  decide

/-- Claim C9 as amended: the completeness gate treats a trailing Unknown entry
like any non-Answer entry — a transcript whose last entry is Unknown is
skipped with outcome "skipped: last entry not answer" when partial mode is
off, and with partial mode on is truncated to end at the last Answer (or
skipped with "skipped: no answer entry" when there is none); trailing Unknown
entries are not excluded from the completeness logic. -/
theorem claim_C9_trailing_unknown (entries : List Entry) (e : Entry)
    (hlast : entries.getLast? = some e) (hu : e.etype = EntryType.Unknown) :
    (completenessGate entries false = GateResult.skippedLastNotAnswer)
    ∧ (lastAnswerIndex entries = none →
        completenessGate entries true = GateResult.skippedNoAnswerEntry)
    ∧ (∀ idx, lastAnswerIndex entries = some idx →
        completenessGate entries true =
          GateResult.truncatedToLastAnswer (entries.take (idx + 1))) := by
  have hne : e.etype ≠ EntryType.Answer := by
    rw [hu]
    intro hcontra
    cases hcontra
  exact ⟨gate_skip_last hlast hne,
    fun hnone => gate_no_answer hlast hne hnone,
    fun idx hidx => gate_truncate hlast hne hidx⟩

/-- Witness for the amended C9 at a concrete transcript. -/
theorem claim_C9_witness :
    completenessGate
        [⟨[], EntryType.Answer, ['a']⟩, ⟨[], EntryType.Unknown, ['b']⟩] true =
      GateResult.truncatedToLastAnswer [⟨[], EntryType.Answer, ['a']⟩] :=
  (claim_C9_trailing_unknown
      [⟨[], EntryType.Answer, ['a']⟩, ⟨[], EntryType.Unknown, ['b']⟩]
      ⟨[], EntryType.Unknown, ['b']⟩ rfl rfl).2.2 0 (by decide)

end Missend
